import Mathlib

set_option maxRecDepth 100000

/-!
Verification of the stringcheese multi-encoding pattern search core
(stringcheese/stringcheese.py).

Byte strings are modelled as `List Nat` with entries in `0..255`.  Python
library calls (`base64`, `binascii`, text codecs, `int`, `int.to_bytes`) are
embedded with their documented CPython semantics; fallible calls return
`Option`.  The Aho-Corasick automaton lives in `stringcheese/ahocorasick.py`,
which is not part of the sources under verification; its interface is
modelled from the specification where needed (marked `Modelled from the
spec:`).
-/

namespace Stringcheese

/-- MAX_FLAG_LENGTH constant from the source: cap on a raw match window. -/
def MAX_FLAG_LENGTH : Nat := 2000

/-- CLOSING_CHAR constant from the source: the byte value of b'\x7d'. -/
def CLOSING_CHAR : Nat := 125

/-- Python bytes.rstrip for a single byte value: drop all trailing bytes equal to c. -/
def pyRstrip (c : Nat) (l : List Nat) : List Nat :=
  (l.reverse.dropWhile (fun b => b == c)).reverse

/-- Python slice l[start::step] (with a positive step): the items of l at
indices start, start + step, start + 2 * step, and so on. -/
def pySliceStep (l : List Nat) (start step : Nat) : List Nat :=
  ((l.drop start).enum.filter fun p => p.1 % step == 0).map Prod.snd

/-- Label string for a strided haystack view, as interpolated in the source. -/
def stridedLabel (startpos step : Nat) : String :=
  "stream[" ++ toString startpos ++ "::" ++ toString step ++ "]"

/-- generate_haystacks from the source: the base buffer, then all strided
views for steps 2 to nb_steps-1 (nb_steps = 33 full / 8 fast) and start
offsets 0..step-1, then the reversed buffer. -/
def generate_haystacks (base : List Nat) (fast : Bool) : List (List Nat × String) :=
  (base, "stream") ::
    (((List.range' 2 ((if fast then 8 else 33) - 2)).flatMap fun step =>
      (List.range step).map fun startpos =>
        (pySliceStep base startpos step, stridedLabel startpos step)) ++
      [(base.reverse, "reversed stream")])

/-- Truncation idiom used by several decoders in the source: scan forward and
cut the list at the first element satisfying bad (the whole list if none). -/
def truncAtFirst (bad : Nat → Bool) (l : List Nat) : List Nat :=
  l.take (l.findIdx bad)

/-- rot13 of a single code point, from the dictionary built in crypt_rot13. -/
def rot13Char (c : Nat) : Nat :=
  if 65 ≤ c ∧ c ≤ 90 then (c - 65 + 13) % 26 + 65
  else if 97 ≤ c ∧ c ≤ 122 then (c - 97 + 13) % 26 + 97
  else c

/-- rot47 of a single code point, from the dictionary built in crypt_rot47:
code points 33..79 move up by 47, code points 80..126 move down by 47. -/
def rot47Char (c : Nat) : Nat :=
  if 33 ≤ c ∧ c ≤ 79 then c + 47
  else if 80 ≤ c ∧ c ≤ 126 then c - 47
  else c

/-- UTF-8 encoding of one code point (Python str.encode on a 1-character
string); total on code points below 0x110000. -/
def utf8EncodeChar (c : Nat) : List Nat :=
  if c < 128 then [c]
  else if c < 2048 then [192 + c / 64, 128 + c % 64]
  else if c < 65536 then [224 + c / 4096, 128 + c / 64 % 64, 128 + c % 64]
  else [240 + c / 262144, 128 + c / 4096 % 64, 128 + c / 64 % 64, 128 + c % 64]

/-- crypt_rot13 from the source.  Each input byte b is turned into the
character chr(b), rotated if it is an ASCII letter, and the resulting string
is re-encoded as UTF-8 (so bytes at and above 128 expand to two bytes). -/
def crypt_rot13 (message : List Nat) : List Nat :=
  message.flatMap fun c => utf8EncodeChar (rot13Char c)

/-- crypt_rot47 from the source, with the same chr/encode structure as crypt_rot13. -/
def crypt_rot47 (message : List Nat) : List Nat :=
  message.flatMap fun c => utf8EncodeChar (rot47Char c)

/-- Lowercase hex digit (byte value) of a nibble, as produced by binascii.hexlify. -/
def hexChar (v : Nat) : Nat := if v < 10 then 48 + v else 87 + v

/-- binascii.hexlify: two lowercase hex text bytes per input byte. -/
def hexlify (l : List Nat) : List Nat :=
  l.flatMap fun b => [hexChar (b / 16), hexChar (b % 16)]

/-- Membership in b'0123456789abcdef' as tested by hex_decoder. -/
def isHexDigit (c : Nat) : Bool :=
  (48 ≤ c && c ≤ 57) || (97 ≤ c && c ≤ 102)

/-- Numeric value of a lowercase hex digit byte. -/
def hexVal (c : Nat) : Nat := if c ≤ 57 then c - 48 else c - 87

/-- binascii.unhexlify: fails on odd length or a non-hex byte. -/
def pyUnhexlify : List Nat → Option (List Nat)
  | [] => some []
  | [_] => none
  | a :: b :: rest =>
    if isHexDigit a && isHexDigit b then
      (pyUnhexlify rest).map (fun r => (hexVal a * 16 + hexVal b) :: r)
    else none

/-- hex_decoder from the source: truncate at the first byte outside
b'0123456789abcdef', drop a trailing odd byte, unhexlify. -/
def hex_decoder (m : List Nat) : Option (List Nat) :=
  let t := truncAtFirst (fun c => !(isHexDigit c)) m
  let t2 := if t.length % 2 = 1 then t.dropLast else t
  pyUnhexlify t2

/-- Pair reassembly in hex_bytes_decoder: match[i] << 4 | match[i+1] over pairs. -/
def pairNibbles : List Nat → List Nat
  | a :: b :: rest => (a <<< 4 ||| b) :: pairNibbles rest
  | _ => []

/-- hex_bytes_decoder from the source: truncate at the first byte above 0xf,
drop a trailing odd byte, reassemble nibble pairs. -/
def hex_bytes_decoder (m : List Nat) : List Nat :=
  let t := truncAtFirst (fun c => decide (15 < c)) m
  let t2 := if t.length % 2 = 1 then t.dropLast else t
  pairNibbles t2

/-- Big-endian bits (8 of them) of a byte, as produced by the format
specifier 08b for values below 256. -/
def byteBits (b : Nat) : List Nat :=
  [b / 128 % 2, b / 64 % 2, b / 32 % 2, b / 16 % 2, b / 8 % 2, b / 4 % 2, b / 2 % 2, b % 2]

/-- Binary text pattern built in build_automaton: 8 ASCII 0/1 characters per byte. -/
def binPattern (l : List Nat) : List Nat :=
  l.flatMap fun b => (byteBits b).map (fun x => 48 + x)

/-- Python int(s, 2) on a byte string of ASCII binary digits: fails on the
empty string or a byte that is not an ASCII 0 or 1. -/
def pyIntBase2 (l : List Nat) : Option Nat :=
  if l.isEmpty then none
  else if l.all (fun c => c == 48 || c == 49) then
    some (l.foldl (fun acc c => 2 * acc + (c - 48)) 0)
  else none

/-- Big-endian byte expansion of a natural number into exactly n bytes. -/
def natToBEBytes (v : Nat) : Nat → List Nat
  | 0 => []
  | n + 1 => natToBEBytes (v / 256) n ++ [v % 256]

/-- Python int.to_bytes(n, byteorder=big): fails (OverflowError) when the
value does not fit. -/
def pyToBytesBE (v n : Nat) : Option (List Nat) :=
  if v < 256 ^ n then some (natToBEBytes v n) else none

/-- bitstring_to_bytes from the source: int(bitstring, 2).to_bytes(len // 8, big). -/
def bitstring_to_bytes (bits : List Nat) : Option (List Nat) :=
  (pyIntBase2 bits).bind fun v => pyToBytesBE v (bits.length / 8)

/-- binary_decoder from the source: truncate at the first byte outside b'01',
trim the length to a multiple of 8, convert the bit string.  The conversion
raises ValueError (here: none) on an empty bit string. -/
def binary_decoder (m : List Nat) : Option (List Nat) :=
  let t := truncAtFirst (fun c => !(c == 48 || c == 49)) m
  let t2 := t.take (t.length - t.length % 8)
  bitstring_to_bytes t2

/-- binary_bytes_decoder from the source: truncate at the first byte above 1,
trim to a multiple of 8, add ord(0) to each byte, convert the bit string. -/
def binary_bytes_decoder (m : List Nat) : Option (List Nat) :=
  let t := truncAtFirst (fun c => decide (1 < c)) m
  let t2 := t.take (t.length - t.length % 8)
  bitstring_to_bytes (t2.map (fun x => 48 + x))

/-- Standard base64 alphabet as byte values (A-Z, a-z, 0-9, plus, slash). -/
def b64Alphabet : List Nat :=
  (List.range 26).map (65 + ·) ++ (List.range 26).map (97 + ·) ++
    (List.range 10).map (48 + ·) ++ [43, 47]

/-- Byte of the base64 symbol with 6-bit value v. -/
def b64CharOf (v : Nat) : Nat := b64Alphabet.getD v 0

/-- Membership in the base64 alphabet. -/
def isB64Char (c : Nat) : Bool := b64Alphabet.contains c

/-- The 6-bit value of a base64 symbol byte. -/
def b64ValOf (c : Nat) : Nat := b64Alphabet.findIdx (fun x => x == c)

/-- The 6-bit groups of a byte string, three bytes to four symbols, with the
final partial block encoded into 2 or 3 symbols (zero-filled low bits). -/
def b64ChunkVals : List Nat → List Nat
  | a :: b :: c :: rest =>
    [a / 4, a % 4 * 16 + b / 16, b % 16 * 4 + c / 64, c % 64] ++ b64ChunkVals rest
  | [a, b] => [a / 4, a % 4 * 16 + b / 16, b % 16 * 4]
  | [a] => [a / 4, a % 4 * 16]
  | [] => []

/-- base64.b64encode: symbols plus = padding to a multiple of four. -/
def pyB64Encode (l : List Nat) : List Nat :=
  (b64ChunkVals l).map b64CharOf ++ List.replicate ((3 - l.length % 3) % 3) 61

/-- Bytes reassembled from 6-bit groups, four symbols to three bytes, with
trailing groups of 2 or 3 symbols giving 1 or 2 bytes (leftover bits dropped,
as binascii does without strict checking). -/
def b64DecodeVals : List Nat → List Nat
  | a :: b :: c :: d :: rest =>
    [a * 4 + b / 16, b % 16 * 16 + c / 4, c % 4 * 64 + d] ++ b64DecodeVals rest
  | [a, b, c] => [a * 4 + b / 16, b % 16 * 16 + c / 4]
  | [a, b] => [a * 4 + b / 16]
  | _ => []

/-- base64.b64decode with validate=False, as observed in CPython: bytes
outside the alphabet and = are discarded; data bytes are the discarded-input
prefix before the first =; a data length of 1 mod 4 is an error; without any
padding byte the data length must be a multiple of 4; with padding present, a
data length of 2 mod 4 needs a second padding byte right after the first;
everything after the closing padding is ignored. -/
def pyB64Decode (s : List Nat) : Option (List Nat) :=
  let t := s.filter (fun c => isB64Char c || c == 61)
  let d := t.takeWhile (fun c => c != 61)
  if d.length % 4 = 1 then none
  else if d.length = t.length then
    if d.length % 4 = 0 then some (b64DecodeVals (d.map b64ValOf)) else none
  else if d.length % 4 = 2 then
    if t[d.length + 1]? == some 61 then some (b64DecodeVals (d.map b64ValOf)) else none
  else some (b64DecodeVals (d.map b64ValOf))

/-- Padding re-added by the trim loop of b64_decoder (while len % 4: add =). -/
def pyB64Pad (l : List Nat) : List Nat :=
  l ++ List.replicate ((4 - l.length % 4) % 4) 61

/-- Trim loop of b64_decoder: trim lengths from t down to 0, skipping lengths
that are 1 mod 4, re-padding and retrying the decode each time. -/
def b64TrimLoop (m : List Nat) : Nat → Option (List Nat)
  | 0 => pyB64Decode (pyB64Pad (m.take 0))
  | t + 1 =>
    match (if (t + 1) % 4 = 1 then none else pyB64Decode (pyB64Pad (m.take (t + 1)))) with
    | some r => some r
    | none => b64TrimLoop m t

/-- b64_decoder from the source: try the raw window, then the trim loop. -/
def b64_decoder (m : List Nat) : Option (List Nat) :=
  match pyB64Decode m with
  | some r => some r
  | none => b64TrimLoop m m.length

/-- base64 search pattern built in build_automaton: encode, strip = padding,
and drop one trailing symbol when the stripped length is not a multiple of 3. -/
def b64patternOf (P : List Nat) : List Nat :=
  let s := pyRstrip 61 (pyB64Encode P)
  if s.length % 3 ≠ 0 then s.dropLast else s

/-- Standard base32 alphabet as byte values (A-Z, 2-7). -/
def b32Alphabet : List Nat :=
  (List.range 26).map (65 + ·) ++ (List.range 6).map (50 + ·)

/-- Byte of the base32 symbol with 5-bit value v. -/
def b32CharOf (v : Nat) : Nat := b32Alphabet.getD v 0

/-- Membership in the base32 alphabet. -/
def isB32Char (c : Nat) : Bool := b32Alphabet.contains c

/-- The 5-bit value of a base32 symbol byte. -/
def b32ValOf (c : Nat) : Nat := b32Alphabet.findIdx (fun x => x == c)

/-- The 5-bit groups of a byte string, five bytes to eight symbols, with the
final partial block of 1/2/3/4 bytes encoded into 2/4/5/7 symbols. -/
def b32ChunkVals : List Nat → List Nat
  | a :: b :: c :: d :: e :: rest =>
    [a / 8, a % 8 * 4 + b / 64, b / 2 % 32, b % 2 * 16 + c / 16,
     c % 16 * 2 + d / 128, d / 4 % 32, d % 4 * 8 + e / 32, e % 32] ++ b32ChunkVals rest
  | [a, b, c, d] =>
    [a / 8, a % 8 * 4 + b / 64, b / 2 % 32, b % 2 * 16 + c / 16,
     c % 16 * 2 + d / 128, d / 4 % 32, d % 4 * 8]
  | [a, b, c] =>
    [a / 8, a % 8 * 4 + b / 64, b / 2 % 32, b % 2 * 16 + c / 16, c % 16 * 2]
  | [a, b] => [a / 8, a % 8 * 4 + b / 64, b / 2 % 32, b % 2 * 16]
  | [a] => [a / 8, a % 8 * 4]
  | [] => []

/-- base64.b32encode: symbols plus = padding to a multiple of eight. -/
def pyB32Encode (l : List Nat) : List Nat :=
  (b32ChunkVals l).map b32CharOf ++
    List.replicate ((8 - (b32ChunkVals l).length % 8) % 8) 61

/-- Bytes reassembled from 5-bit groups, eight symbols to five bytes, with
trailing groups of 2/4/5/7 symbols giving 1/2/3/4 bytes. -/
def b32DecodeVals : List Nat → List Nat
  | v1 :: v2 :: v3 :: v4 :: v5 :: v6 :: v7 :: v8 :: rest =>
    [v1 * 8 + v2 / 4, v2 % 4 * 64 + v3 * 2 + v4 / 16, v4 % 16 * 16 + v5 / 2,
     v5 % 2 * 128 + v6 * 4 + v7 / 8, v7 % 8 * 32 + v8] ++ b32DecodeVals rest
  | [v1, v2, v3, v4, v5, v6, v7] =>
    [v1 * 8 + v2 / 4, v2 % 4 * 64 + v3 * 2 + v4 / 16, v4 % 16 * 16 + v5 / 2,
     v5 % 2 * 128 + v6 * 4 + v7 / 8]
  | [v1, v2, v3, v4, v5] =>
    [v1 * 8 + v2 / 4, v2 % 4 * 64 + v3 * 2 + v4 / 16, v4 % 16 * 16 + v5 / 2]
  | [v1, v2, v3, v4] => [v1 * 8 + v2 / 4, v2 % 4 * 64 + v3 * 2 + v4 / 16]
  | [v1, v2] => [v1 * 8 + v2 / 4]
  | _ => []

/-- base64.b32decode as in CPython: total length must be a multiple of 8;
trailing = bytes are stripped and counted; the rest must be alphabet bytes;
the number of padding bytes must be 0, 1, 3, 4 or 6. -/
def pyB32Decode (s : List Nat) : Option (List Nat) :=
  if s.length % 8 ≠ 0 then none
  else
    let d := pyRstrip 61 s
    if !(d.all isB32Char) then none
    else
      let padchars := s.length - d.length
      if padchars = 0 ∨ padchars = 1 ∨ padchars = 3 ∨ padchars = 4 ∨ padchars = 6 then
        some (b32DecodeVals (d.map b32ValOf))
      else none

/-- Padding re-added by the trim loop of b32_decoder (while len % 8: add =). -/
def pyB32Pad (l : List Nat) : List Nat :=
  l ++ List.replicate ((8 - l.length % 8) % 8) 61

/-- Trim loop of b32_decoder: trim lengths from t down to 0, skipping lengths
that are 1 mod 8, re-padding and retrying the decode each time. -/
def b32TrimLoop (m : List Nat) : Nat → Option (List Nat)
  | 0 => pyB32Decode (pyB32Pad (m.take 0))
  | t + 1 =>
    match (if (t + 1) % 8 = 1 then none else pyB32Decode (pyB32Pad (m.take (t + 1)))) with
    | some r => some r
    | none => b32TrimLoop m t

/-- b32_decoder from the source: try the raw window, then the trim loop. -/
def b32_decoder (m : List Nat) : Option (List Nat) :=
  match pyB32Decode m with
  | some r => some r
  | none => b32TrimLoop m m.length

/-- base32 search pattern built in build_automaton: encode, strip = padding,
and drop one trailing symbol when the stripped length is not a multiple of 7. -/
def b32patternOf (P : List Nat) : List Nat :=
  let s := pyRstrip 61 (pyB32Encode P)
  if s.length % 7 ≠ 0 then s.dropLast else s

/-- UTF-8 encoding of a code point sequence (Python str.encode with no arguments). -/
def utf8Encode (cps : List Nat) : List Nat :=
  cps.flatMap utf8EncodeChar

/-- One step of strict UTF-8 decoding: read a single code point from the
first byte and the bytes after it, rejecting truncated sequences, bad
continuation bytes, overlong forms, surrogates and code points above
0x10FFFF; return the code point and the remaining bytes. -/
def utf8Step (b : Nat) (rest : List Nat) : Option (Nat × List Nat) :=
  if b < 128 then some (b, rest)
  else if b < 194 then none
  else if b < 224 then
    match rest with
    | c :: r => if 128 ≤ c ∧ c < 192 then some ((b - 192) * 64 + (c - 128), r) else none
    | [] => none
  else if b < 240 then
    match rest with
    | c :: d :: r =>
      if ((if b = 224 then 160 else 128) ≤ c ∧ c < (if b = 237 then 160 else 192)) ∧
          (128 ≤ d ∧ d < 192) then
        some ((b - 224) * 4096 + (c - 128) * 64 + (d - 128), r)
      else none
    | _ => none
  else if b < 245 then
    match rest with
    | c :: d :: e :: r =>
      if ((if b = 240 then 144 else 128) ≤ c ∧ c < (if b = 244 then 144 else 192)) ∧
          (128 ≤ d ∧ d < 192) ∧ (128 ≤ e ∧ e < 192) then
        some ((b - 240) * 262144 + (c - 128) * 4096 + (d - 128) * 64 + (e - 128), r)
      else none
    | _ => none
  else none

/-- Code-point loop of strict UTF-8 decoding; the fuel only bounds the number
of code points and is in excess whenever it is at least the byte length. -/
def utf8DecodeLoop : Nat → List Nat → Option (List Nat)
  | _, [] => some []
  | 0, _ :: _ => none
  | fuel + 1, b :: rest =>
    match utf8Step b rest with
    | some (c, r) => (utf8DecodeLoop fuel r).map (c :: ·)
    | none => none

/-- Strict UTF-8 decoding (Python bytes.decode with no arguments): one
utf8Step per code point, rejecting any malformed input. -/
def utf8Decode (l : List Nat) : Option (List Nat) :=
  utf8DecodeLoop l.length l

/-- UTF-16 code units of one code point: one unit below 0x10000, else a
surrogate pair. -/
def utf16Units (c : Nat) : List Nat :=
  if c < 65536 then [c]
  else [55296 + (c - 65536) / 1024, 56320 + (c - 65536) % 1024]

/-- UTF-16-LE encoding of a code point sequence. -/
def utf16EncodeLE (cps : List Nat) : List Nat :=
  cps.flatMap fun c => (utf16Units c).flatMap fun u => [u % 256, u / 256]

/-- UTF-16-BE encoding of a code point sequence. -/
def utf16EncodeBE (cps : List Nat) : List Nat :=
  cps.flatMap fun c => (utf16Units c).flatMap fun u => [u / 256, u % 256]

/-- Python str.encode to utf-16: a little-endian BOM then the LE body. -/
def utf16EncodeBOM (cps : List Nat) : List Nat :=
  255 :: 254 :: utf16EncodeLE cps

/-- UTF-16 decoding parameterized by the unit assembly order: pairs of bytes
form units; a high surrogate must be followed by a low surrogate; a lone or
misordered surrogate and a trailing odd byte are errors. -/
def utf16DecodeWith (mk : Nat → Nat → Nat) : List Nat → Option (List Nat)
  | [] => some []
  | [_] => none
  | b0 :: b1 :: rest =>
    if mk b0 b1 < 55296 ∨ 57344 ≤ mk b0 b1 then
      (utf16DecodeWith mk rest).map (mk b0 b1 :: ·)
    else if mk b0 b1 < 56320 then
      match rest with
      | b2 :: b3 :: r =>
        if 56320 ≤ mk b2 b3 ∧ mk b2 b3 < 57344 then
          (utf16DecodeWith mk r).map
            ((65536 + (mk b0 b1 - 55296) * 1024 + (mk b2 b3 - 56320)) :: ·)
        else none
      | _ => none
    else none

/-- Python bytes.decode to utf-16-le. -/
def utf16DecodeLE : List Nat → Option (List Nat) :=
  utf16DecodeWith fun a b => a + 256 * b

/-- Python bytes.decode to utf-16-be. -/
def utf16DecodeBE : List Nat → Option (List Nat) :=
  utf16DecodeWith fun a b => 256 * a + b

/-- Python bytes.decode to utf-16: a leading BOM selects the order and is
consumed; without a BOM the native little-endian order is used. -/
def utf16DecodeBOM : List Nat → Option (List Nat)
  | 255 :: 254 :: rest => utf16DecodeLE rest
  | 254 :: 255 :: rest => utf16DecodeBE rest
  | l => utf16DecodeLE l

/-- UTF-32-LE encoding of a code point sequence. -/
def utf32EncodeLE (cps : List Nat) : List Nat :=
  cps.flatMap fun c => [c % 256, c / 256 % 256, c / 65536 % 256, c / 16777216 % 256]

/-- UTF-32-BE encoding of a code point sequence. -/
def utf32EncodeBE (cps : List Nat) : List Nat :=
  cps.flatMap fun c => [c / 16777216 % 256, c / 65536 % 256, c / 256 % 256, c % 256]

/-- Python str.encode to utf-32: a little-endian BOM then the LE body. -/
def utf32EncodeBOM (cps : List Nat) : List Nat :=
  255 :: 254 :: 0 :: 0 :: utf32EncodeLE cps

/-- UTF-32 decoding parameterized by the word assembly order: quadruples of
bytes form code points; surrogates, values above 0x10FFFF and a trailing
partial word are errors. -/
def utf32DecodeWith (mk : Nat → Nat → Nat → Nat → Nat) : List Nat → Option (List Nat)
  | [] => some []
  | b0 :: b1 :: b2 :: b3 :: rest =>
    if mk b0 b1 b2 b3 < 1114112 ∧ ¬(55296 ≤ mk b0 b1 b2 b3 ∧ mk b0 b1 b2 b3 < 57344) then
      (utf32DecodeWith mk rest).map (mk b0 b1 b2 b3 :: ·)
    else none
  | _ => none

/-- Python bytes.decode to utf-32-le. -/
def utf32DecodeLE : List Nat → Option (List Nat) :=
  utf32DecodeWith fun a b c d => a + 256 * b + 65536 * c + 16777216 * d

/-- Python bytes.decode to utf-32-be. -/
def utf32DecodeBE : List Nat → Option (List Nat) :=
  utf32DecodeWith fun a b c d => 16777216 * a + 65536 * b + 256 * c + d

/-- Python bytes.decode to utf-32: a leading BOM selects the order and is
consumed; without a BOM the native little-endian order is used. -/
def utf32DecodeBOM : List Nat → Option (List Nat)
  | 255 :: 254 :: 0 :: 0 :: rest => utf32DecodeLE rest
  | 0 :: 0 :: 254 :: 255 :: rest => utf32DecodeBE rest
  | l => utf32DecodeLE l

/-- The six text codecs iterated over in build_automaton. -/
inductive Codec where
  | utf16 | utf16be | utf16le | utf32 | utf32be | utf32le
deriving DecidableEq

/-- Codec name string as written in the source. -/
def codecName : Codec → String
  | .utf16 => "utf-16"
  | .utf16be => "utf-16-be"
  | .utf16le => "utf-16-le"
  | .utf32 => "utf-32"
  | .utf32be => "utf-32-be"
  | .utf32le => "utf-32-le"

/-- str.encode for each codec. -/
def codecEncode : Codec → List Nat → List Nat
  | .utf16 => utf16EncodeBOM
  | .utf16be => utf16EncodeBE
  | .utf16le => utf16EncodeLE
  | .utf32 => utf32EncodeBOM
  | .utf32be => utf32EncodeBE
  | .utf32le => utf32EncodeLE

/-- bytes.decode for each codec. -/
def codecDecode : Codec → List Nat → Option (List Nat)
  | .utf16 => utf16DecodeBOM
  | .utf16be => utf16DecodeBE
  | .utf16le => utf16DecodeLE
  | .utf32 => utf32DecodeBOM
  | .utf32be => utf32DecodeBE
  | .utf32le => utf32DecodeLE

/-- Order of the codec loop in build_automaton. -/
def codecList : List Codec :=
  [.utf16, .utf16be, .utf16le, .utf32, .utf32be, .utf32le]

/-- While loop of codec_decoder: try to decode the first t bytes of the
window, trimming one byte per iteration; None once the window is empty. -/
def codecTrimLoop (c : Codec) (m : List Nat) : Nat → Option (List Nat)
  | 0 => none
  | t + 1 =>
    match codecDecode c (m.take (t + 1)) with
    | some cps => some (utf8Encode cps)
    | none => codecTrimLoop c m t

/-- codec_decoder_generator from the source: decode the window, re-encode the
result as UTF-8; on failure trim one byte off the end and retry; return None
once the window is empty. -/
def codec_decoder (c : Codec) (m : List Nat) : Option (List Nat) :=
  codecTrimLoop c m m.length

/-- Decoder tags, one per encoding family of build_automaton; the XOR key is
carried as data. -/
inductive Dec where
  | identity
  | b64
  | b32
  | codec : Codec → Dec
  | xor : Nat → Dec
  | hex
  | rawHex
  | binary
  | rot13
  | rot47
  | rawBinary
deriving DecidableEq

/-- Outcome of running a decoder in Python: a byte string, the value None, or
an uncaught exception. -/
inductive Dres where
  | ok : List Nat → Dres
  | failed : Dres
  | exc : String → Dres
deriving DecidableEq

/-- Interpretation of each decoder tag on a raw window, with Python None as
failed and uncaught exceptions as exc. -/
def applyDec : Dec → List Nat → Dres
  | .identity, m => .ok m
  | .b64, m =>
    match b64_decoder m with
    | some r => .ok r
    | none => .failed
  | .b32, m =>
    match b32_decoder m with
    | some r => .ok r
    | none => .failed
  | .codec c, m =>
    match codec_decoder c m with
    | some r => .ok r
    | none => .failed
  | .xor k, m => .ok (m.map fun x => k ^^^ x)
  | .hex, m =>
    match hex_decoder m with
    | some r => .ok r
    | none => .exc "binascii.Error"
  | .rawHex, m => .ok (hex_bytes_decoder m)
  | .binary, m =>
    match binary_decoder m with
    | some r => .ok r
    | none => .exc "ValueError"
  | .rot13, m => .ok (crypt_rot13 m)
  | .rot47, m => .ok (crypt_rot47 m)
  | .rawBinary, m =>
    match binary_bytes_decoder m with
    | some r => .ok r
    | none => .exc "ValueError"

/-- One stored pattern of the automaton: search bytes, label, decoder tag. -/
abbrev Entry : Type := List Nat × String × Dec

/-- Modelled from the spec: add_word of the Aho-Corasick automaton in
stringcheese/ahocorasick.py, which is not under src.  Per the spec a pattern
is attached as an output of its terminal trie node, a node may carry several
outputs, and an encoding that produces a zero-length search pattern is
omitted at construction time; so the automaton content is the insertion-order
list of nonempty (word, label, decoder) entries. -/
def addWord (a : List Entry) (w : List Nat) (lab : String) (d : Dec) : List Entry :=
  if w.isEmpty then a else a ++ [(w, lab, d)]

/-- XOR variant pattern from build_automaton. -/
def xorPattern (k : Nat) (P : List Nat) : List Nat :=
  P.map fun x => k ^^^ x

/-- raw_hex pattern: bytes(int(x) for x in hex_pattern).  Iterating a Python 3
bytes object yields ints and int is the identity on ints, so this equals the
hex pattern itself. -/
def rawHexPattern (P : List Nat) : List Nat :=
  (hexlify P).map fun x => x

/-- raw_binary pattern: bytes(int(x) for x in bin_pattern), which in Python 3
equals the binary text pattern itself. -/
def rawBinPattern (P : List Nat) : List Nat :=
  (binPattern P).map fun x => x

/-- build_automaton from the source: all variants inserted in source order.
The call pattern.decode() makes construction fail on a pattern that is not
valid UTF-8. -/
def build_automaton (P : List Nat) : Option (List Entry) := do
  let cps ← utf8Decode P
  let a0 := addWord [] P "ASCII" .identity
  let a1 := addWord a0 (b64patternOf P) "base64" .b64
  let a2 := addWord a1 (b32patternOf P) "base32" .b32
  let a3 := codecList.foldl
    (fun acc c => addWord acc (codecEncode c cps) (codecName c) (.codec c)) a2
  let a4 := (List.range' 1 255).foldl
    (fun acc k => addWord acc (xorPattern k P) ("XOR_" ++ toString k) (.xor k)) a3
  let a5 := addWord a4 (hexlify P) "hex" .hex
  let a6 := addWord a5 (rawHexPattern P) "raw_hex" .rawHex
  let a7 := addWord a6 (binPattern P) "binary" .binary
  let a8 := addWord a7 (crypt_rot13 P) "raw_rot13" .rot13
  let a9 := addWord a8 (crypt_rot47 P) "raw_rot47" .rot47
  pure (addWord a9 (rawBinPattern P) "raw_binary" .rawBinary)

/-- postprocess_match from the source: truncate at the first non-printable
byte, then cut just after the first closing brace byte if one remains.  The
final str.decode is the identity on this printable ASCII prefix. -/
def postprocess_match (raw : List Nat) : List Nat :=
  let t := truncAtFirst (fun b => decide (b < 32 ∨ 126 < b)) raw
  if t.contains CLOSING_CHAR then
    (t.takeWhile fun b => b ≠ CLOSING_CHAR) ++ [CLOSING_CHAR]
  else t

/-- Modelled from the spec: automaton.iter of stringcheese/ahocorasick.py
(not under src) scans the haystack once left to right and, at each byte
offset, emits one match per stored pattern that is a suffix of the scanned
prefix (a node's outputs together with all outputs reachable along failure
links), tagged with the inclusive end offset; so matches are grouped by
strictly increasing end offset, entries at one offset in insertion order. -/
def iterMatches (entries : List Entry) (h : List Nat) : List (Nat × Entry) :=
  (List.range h.length).flatMap fun e =>
    ((entries.filter fun ent => ent.1.isSuffixOf (h.take (e + 1))).map fun ent => (e, ent))

/-- One reported result: haystack label, encoding label, postprocessed flag. -/
abbrev Result : Type := String × String × List Nat

/-- Per-view match processing of extract_matches: for each match, slice the
raw window h[start : start + MAX_FLAG_LENGTH], run the decoder, postprocess
and report.  A decoder that returns None reaches postprocess_match(None),
which raises TypeError; a decoder exception propagates.  In fast mode the
run stops (sys.exit) right after the first reported result. -/
def processMatches (h : List Nat) (hname : String) (fast : Bool) :
    List (Nat × Entry) → Except String (List Result × Bool)
  | [] => .ok ([], false)
  | (e, w, lab, d) :: rest =>
    let start := e + 1 - w.length
    let raw := (h.drop start).take MAX_FLAG_LENGTH
    match applyDec d raw with
    | .ok b =>
      if fast then .ok ([(hname, lab, postprocess_match b)], true)
      else
        (processMatches h hname fast rest).map fun p =>
          ((hname, lab, postprocess_match b) :: p.1, p.2)
    | .failed => .error "TypeError"
    | .exc s => .error s

/-- View loop of extract_matches: views processed in generation order; a true
stop flag (fast-mode exit) ends the whole run. -/
def runViews (entries : List Entry) (fast : Bool) :
    List (List Nat × String) → Except String (List Result)
  | [] => .ok []
  | (h, name) :: vs =>
    match processMatches h name fast (iterMatches entries h) with
    | .error s => .error s
    | .ok (rs, true) => .ok rs
    | .ok (rs, false) => (runViews entries fast vs).map fun more => rs ++ more

/-- Core of extract_matches: scan every generated haystack view. -/
def extract_matches_core (entries : List Entry) (B : List Nat) (fast : Bool) :
    Except String (List Result) :=
  runViews entries fast (generate_haystacks B fast)

/-- Whole pipeline on a pattern, buffer and fast flag: build the automaton
(failing like pattern.decode() on invalid UTF-8), then scan. -/
def stringcheeseRun (P B : List Nat) (fast : Bool) : Except String (List Result) :=
  match build_automaton P with
  | none => .error "UnicodeDecodeError"
  | some entries => extract_matches_core entries B fast

/-- Postprocessing as the claim states it: take the longest leading run of
printable ASCII bytes (32..126), then, if the closing byte occurs in that
run, cut immediately after its first occurrence. -/
def claimPostprocess (raw : List Nat) : List Nat :=
  let run := raw.takeWhile fun b => decide (32 ≤ b ∧ b ≤ 126)
  if CLOSING_CHAR ∈ run then (run.takeWhile fun b => b ≠ CLOSING_CHAR) ++ [CLOSING_CHAR]
  else run

lemma truncAtFirst_eq_takeWhile (bad : Nat → Bool) (l : List Nat) :
    truncAtFirst bad l = l.takeWhile fun b => !(bad b) := by
  induction l with
  | nil => rfl
  | cons a t ih =>
    by_cases h : bad a
    · simp [truncAtFirst, List.findIdx_cons, h, List.takeWhile_cons]
    · simp_all [truncAtFirst, List.findIdx_cons, List.takeWhile_cons]

/-- C6: postprocessing truncates the decoded bytes to the longest leading run
of printable ASCII (32..126) and then, when the closing byte 0x7d occurs in
that run, cuts immediately after its first occurrence; the reported string is
exactly that. -/
theorem C6_postprocess (raw : List Nat) : postprocess_match raw = claimPostprocess raw := by
  have hpred :
      (fun b : Nat => !(decide (b < 32 ∨ 126 < b))) =
        (fun b : Nat => decide (32 ≤ b ∧ b ≤ 126)) := by
    funext b
    by_cases ha : 32 ≤ b <;> by_cases hb : b ≤ 126
    · simp [ha, hb, show ¬b < 32 by omega, show ¬126 < b by omega]
    · simp [ha, hb, show ¬b < 32 by omega, show 126 < b by omega]
    · simp [ha, hb, show b < 32 by omega]
    · omega
  unfold postprocess_match claimPostprocess
  rw [truncAtFirst_eq_takeWhile, hpred]
  by_cases hc : CLOSING_CHAR ∈ raw.takeWhile fun b => decide (32 ≤ b ∧ b ≤ 126) <;>
    simp [hc]

lemma xor_xor_cancel (k x : Nat) : k ^^^ (k ^^^ x) = x := by
  rw [← Nat.xor_assoc, Nat.xor_self, Nat.zero_xor]

/-- C7: for every key 1..255, XOR-decoding after XOR-encoding with the same
key returns the data exactly, and the XOR decoder returns bytes (never a
failure) on every window. -/
theorem C7_xor_roundtrip (k : Nat) (h1 : 1 ≤ k) (h2 : k ≤ 255) (data w : List Nat) :
    applyDec (Dec.xor k) (xorPattern k data) = Dres.ok data ∧
    applyDec (Dec.xor k) w = Dres.ok (w.map fun x => k ^^^ x) := by
  refine ⟨?_, rfl⟩
  simp [applyDec, xorPattern, List.map_map, Function.comp_def, xor_xor_cancel]

theorem C7_xor_roundtrip_witness :
    1 ≤ 7 ∧ 7 ≤ 255 ∧
      (applyDec (Dec.xor 7) (xorPattern 7 [70, 76]) = Dres.ok [70, 76] ∧
        applyDec (Dec.xor 7) [1, 2, 3] = Dres.ok ([1, 2, 3].map fun x => 7 ^^^ x)) :=
  ⟨by decide, by decide, C7_xor_roundtrip 7 (by decide) (by decide) [70, 76] [1, 2, 3]⟩

lemma utf8EncodeChar_ascii {c : Nat} (h : c < 128) : utf8EncodeChar c = [c] := by
  simp [utf8EncodeChar, h]

lemma rot13Char_lt_128 : ∀ c < 128, rot13Char c < 128 := by decide

lemma rot13Char_invol : ∀ c < 128, rot13Char (rot13Char c) = c := by decide

lemma rot47Char_lt_128 : ∀ c < 128, rot47Char c < 128 := by decide

lemma rot47Char_invol : ∀ c < 128, rot47Char (rot47Char c) = c := by decide

lemma crypt_rot13_ascii (x : List Nat) (h : ∀ c ∈ x, c < 128) :
    crypt_rot13 x = x.map rot13Char := by
  induction x with
  | nil => rfl
  | cons a t ih =>
    have ha : a < 128 := h a (by simp)
    have ht : ∀ c ∈ t, c < 128 := fun c hc => h c (by simp [hc])
    simp only [crypt_rot13, List.flatMap_cons, List.map_cons] at ih ⊢
    rw [utf8EncodeChar_ascii (rot13Char_lt_128 a ha), ih ht]
    rfl

lemma crypt_rot47_ascii (x : List Nat) (h : ∀ c ∈ x, c < 128) :
    crypt_rot47 x = x.map rot47Char := by
  induction x with
  | nil => rfl
  | cons a t ih =>
    have ha : a < 128 := h a (by simp)
    have ht : ∀ c ∈ t, c < 128 := fun c hc => h c (by simp [hc])
    simp only [crypt_rot47, List.flatMap_cons, List.map_cons] at ih ⊢
    rw [utf8EncodeChar_ascii (rot47Char_lt_128 a ha), ih ht]
    rfl

lemma crypt_rot13_invol (x : List Nat) (h : ∀ c ∈ x, c < 128) :
    crypt_rot13 (crypt_rot13 x) = x := by
  have h2 : ∀ c ∈ x.map rot13Char, c < 128 := by
    intro c hc
    rcases List.mem_map.mp hc with ⟨a, ha, rfl⟩
    exact rot13Char_lt_128 a (h a ha)
  rw [crypt_rot13_ascii x h, crypt_rot13_ascii _ h2, List.map_map]
  have : ∀ c ∈ x, (rot13Char ∘ rot13Char) c = id c := by
    intro c hc
    simpa using rot13Char_invol c (h c hc)
  rw [List.map_congr_left this, List.map_id]

lemma crypt_rot47_invol (x : List Nat) (h : ∀ c ∈ x, c < 128) :
    crypt_rot47 (crypt_rot47 x) = x := by
  have h2 : ∀ c ∈ x.map rot47Char, c < 128 := by
    intro c hc
    rcases List.mem_map.mp hc with ⟨a, ha, rfl⟩
    exact rot47Char_lt_128 a (h a ha)
  rw [crypt_rot47_ascii x h, crypt_rot47_ascii _ h2, List.map_map]
  have : ∀ c ∈ x, (rot47Char ∘ rot47Char) c = id c := by
    intro c hc
    simpa using rot47Char_invol c (h c hc)
  rw [List.map_congr_left this, List.map_id]

/-- C8: the ROT13 and ROT47 transforms of the source are each self-inverse on
byte strings of ASCII-range bytes. -/
theorem C8_rot_self_inverse (x : List Nat) (h : ∀ c ∈ x, c < 128) :
    crypt_rot13 (crypt_rot13 x) = x ∧ crypt_rot47 (crypt_rot47 x) = x :=
  ⟨crypt_rot13_invol x h, crypt_rot47_invol x h⟩

theorem C8_rot_self_inverse_witness :
    (∀ c ∈ [70, 76, 65, 71, 123], c < 128) ∧
      (crypt_rot13 (crypt_rot13 [70, 76, 65, 71, 123]) = [70, 76, 65, 71, 123] ∧
        crypt_rot47 (crypt_rot47 [70, 76, 65, 71, 123]) = [70, 76, 65, 71, 123]) :=
  ⟨by decide, C8_rot_self_inverse [70, 76, 65, 71, 123] (by decide)⟩

/-- C3: decode failure does not degrade to a silently dropped match.  On the
16-byte buffer that is the binary text encoding of the pattern FL, the full
pipeline aborts with an uncaught ValueError (raised inside the raw_binary
decoder via int of an empty bit string); and a match whose decoder returns
None reaches postprocess_match(None), an uncaught TypeError, instead of
being skipped. -/
theorem C3_decode_failure_crash :
    stringcheeseRun [70, 76]
        [48, 49, 48, 48, 48, 49, 49, 48, 48, 49, 48, 48, 49, 49, 48, 48] false =
      .error "ValueError" ∧
    processMatches [65] "stream" false [(0, [65], "utf-16-be", Dec.codec Codec.utf16be)] =
      .error "TypeError" :=
  ⟨rfl, rfl⟩

/-- Number of indices start, start + step, start + 2*step, ... below n. -/
def strideCount (n start step : Nat) : Nat := (n - start + step - 1) / step

/-- Subsequence of l at positions start, start + step, start + 2*step, ...,
as the claim describes a strided view. -/
def specStride (l : List Nat) (start step : Nat) : List Nat :=
  (List.range (strideCount l.length start step)).map fun k => l.getD (start + step * k) 0

/-- View sequence as the claim describes it: the buffer itself, then for each
stride step from 2 below the configured bound and each start offset 0..step-1
the strided subsequence, then the reversed buffer. -/
def claimViews (B : List Nat) (fast : Bool) : List (List Nat × String) :=
  (B, "stream") ::
    (((List.range' 2 ((if fast then 8 else 33) - 2)).flatMap fun step =>
      (List.range step).map fun startpos =>
        (specStride B startpos step, stridedLabel startpos step)) ++
      [(B.reverse, "reversed stream")])

lemma filtermap_enumFrom_shift (step : Nat) (xs : List Nat) :
    ∀ i, ((List.enumFrom (i + step) xs).filter fun p => p.1 % step == 0).map Prod.snd =
      ((List.enumFrom i xs).filter fun p => p.1 % step == 0).map Prod.snd := by
  induction xs with
  | nil => intro i; rfl
  | cons a t ih =>
    intro i
    simp only [List.enumFrom_cons, List.filter_cons]
    have hmod : ((i + step) % step == 0) = (i % step == 0) := by
      simp [Nat.add_mod_right]
    have harr : i + step + 1 = (i + 1) + step := by omega
    cases h : (i % step == 0) <;> simp only [hmod, h] <;>
      simp [harr, ih (i + 1)]

lemma filtermap_enumFrom_drop (step : Nat) (hstep : 1 ≤ step) :
    ∀ (xs : List Nat) (j : Nat), 1 ≤ j → j ≤ step →
      ((List.enumFrom j xs).filter fun p => p.1 % step == 0).map Prod.snd =
        (((xs.drop (step - j)).enum.filter fun p => p.1 % step == 0).map Prod.snd) := by
  intro xs
  induction xs with
  | nil => intro j h1 h2; simp
  | cons a t ih =>
    intro j h1 h2
    by_cases hj : j = step
    · subst hj
      have hd : (a :: t).drop (j - j) = a :: t := by simp
      rw [hd]
      simp only [List.enumFrom_cons, List.enum_cons]
      rw [List.filter_cons_of_pos (by simp [Nat.mod_self]),
        List.filter_cons_of_pos (by simp)]
      simp only [List.map_cons]
      rw [show j + 1 = 1 + j by omega, filtermap_enumFrom_shift j t 1]
    · have hjlt : j < step := by omega
      have hd : (a :: t).drop (step - j) = t.drop (step - j - 1) := by
        conv_lhs => rw [show step - j = (step - j - 1) + 1 by omega]
        rw [List.drop_succ_cons]
      rw [hd]
      simp only [List.enumFrom_cons, List.filter_cons]
      have hnz : (j % step == 0) = false := by
        simp [Nat.mod_eq_of_lt hjlt]
        omega
      simp only [hnz]
      have := ih (j + 1) (by omega) (by omega)
      rw [show step - (j + 1) = step - j - 1 by omega] at this
      simpa using this

lemma pySliceStep_out (l : List Nat) (start step : Nat) (h : l.length ≤ start) :
    pySliceStep l start step = [] := by
  simp [pySliceStep, List.drop_eq_nil_of_le h]

lemma specStride_out (l : List Nat) (start step : Nat) (h : l.length ≤ start) :
    specStride l start step = [] := by
  have hz : l.length - start = 0 := by omega
  rcases Nat.eq_zero_or_pos step with hs | hs
  · simp [specStride, strideCount, hz, hs]
  · have : (l.length - start + step - 1) / step = 0 :=
      Nat.div_eq_of_lt (by omega)
    simp [specStride, strideCount, this]

lemma pySliceStep_step (l : List Nat) (start step : Nat) (hstep : 1 ≤ step)
    (h : start < l.length) :
    pySliceStep l start step = l.getD start 0 :: pySliceStep l (start + step) step := by
  have hd : l.drop start = l.getD start 0 :: l.drop (start + 1) := by
    rw [List.drop_eq_getElem_cons h]
    congr 1
    simp [List.getD, List.getElem?_eq_getElem h]
  unfold pySliceStep
  rw [hd]
  simp only [List.enum_cons]
  rw [List.filter_cons_of_pos (by simp)]
  simp only [List.map_cons]
  congr 1
  have := filtermap_enumFrom_drop step hstep (l.drop (start + 1)) 1 (by omega) hstep
  rw [this, List.drop_drop, show start + 1 + (step - 1) = start + step by omega]

lemma strideCount_step (n start step : Nat) (hstep : 1 ≤ step) (h : start < n) :
    strideCount n start step = strideCount n (start + step) step + 1 := by
  unfold strideCount
  have ha : 1 ≤ n - start := by omega
  have h1 : n - start + step - 1 = (n - start - 1) + step := by omega
  rw [h1, Nat.add_div_right _ (by omega)]
  by_cases hc : n - start ≤ step
  · have h2 : n - (start + step) = 0 := by omega
    rw [h2]
    have h3 : (n - start - 1) / step = 0 := Nat.div_eq_of_lt (by omega)
    have h4 : (0 + step - 1) / step = 0 := Nat.div_eq_of_lt (by omega)
    omega
  · have h2 : n - (start + step) + step - 1 = (n - start - 1 - step) + step := by omega
    rw [h2, Nat.add_div_right _ (by omega)]
    conv_lhs => rw [show n - start - 1 = (n - start - 1 - step) + step by omega,
      Nat.add_div_right _ (by omega)]

lemma specStride_step (l : List Nat) (start step : Nat) (hstep : 1 ≤ step)
    (h : start < l.length) :
    specStride l start step = l.getD start 0 :: specStride l (start + step) step := by
  unfold specStride
  rw [strideCount_step l.length start step hstep h, List.range_succ_eq_map]
  simp only [List.map_cons, Nat.mul_zero, Nat.add_zero, List.map_map]
  congr 1
  apply List.map_congr_left
  intro k _
  simp only [Function.comp_apply]
  congr 1
  simp only [Nat.succ_eq_add_one]
  ring

lemma pySliceStep_eq_specStride (l : List Nat) (step : Nat) (hstep : 1 ≤ step)
    (start : Nat) : pySliceStep l start step = specStride l start step := by
  have key : ∀ fuel start, l.length - start ≤ fuel →
      pySliceStep l start step = specStride l start step := by
    intro fuel
    induction fuel with
    | zero =>
      intro start h
      have hle : l.length ≤ start := by omega
      rw [pySliceStep_out _ _ _ hle, specStride_out _ _ _ hle]
    | succ f ih =>
      intro start h
      by_cases hs : start < l.length
      · rw [pySliceStep_step _ _ _ hstep hs, specStride_step _ _ _ hstep hs,
          ih (start + step) (by omega)]
      · have hle : l.length ≤ start := by omega
        rw [pySliceStep_out _ _ _ hle, specStride_out _ _ _ hle]
  exact key _ start le_rfl

lemma flatMap_congr_mem {α β : Type} (l : List α) (f g : α → List β)
    (h : ∀ a ∈ l, f a = g a) : l.flatMap f = l.flatMap g := by
  induction l with
  | nil => rfl
  | cons a t ih =>
    simp only [List.flatMap_cons]
    rw [h a (by simp), ih fun x hx => h x (by simp [hx])]

/-- C4: generate_views yields exactly, in order: the buffer labelled stream;
then for each stride step from 2 below the configured bound (33 full, 8 fast)
and each start offset 0..step-1 the subsequence at positions start,
start + step, start + 2*step (labelled with the start and step pair); and
finally the reversed buffer; the sequence is a finite list by construction. -/
theorem C4_views (B : List Nat) (fast : Bool) :
    generate_haystacks B fast = claimViews B fast := by
  unfold generate_haystacks claimViews
  congr 2
  apply flatMap_congr_mem
  intro step hstep
  have h2 : 2 ≤ step := by
    have := List.mem_range'.mp hstep
    omega
  apply List.map_congr_left
  intro s _
  rw [pySliceStep_eq_specStride B step (by omega) s]

lemma b64ChunkVals_length : ∀ P : List Nat, (b64ChunkVals P).length = (4 * P.length + 2) / 3
  | [] => by simp [b64ChunkVals]
  | [a] => by simp [b64ChunkVals]
  | [a, b] => by simp [b64ChunkVals]
  | a :: b :: c :: rest => by
    have ih := b64ChunkVals_length rest
    simp only [b64ChunkVals, List.length_append, List.length_cons, List.length_nil, ih]
    omega

lemma b32ChunkVals_length : ∀ P : List Nat, (b32ChunkVals P).length = (8 * P.length + 4) / 5
  | [] => by simp [b32ChunkVals]
  | [a] => by simp [b32ChunkVals]
  | [a, b] => by simp [b32ChunkVals]
  | [a, b, c] => by simp [b32ChunkVals]
  | [a, b, c, d] => by simp [b32ChunkVals]
  | a :: b :: c :: d :: e :: rest => by
    have ih := b32ChunkVals_length rest
    simp only [b32ChunkVals, List.length_append, List.length_cons, List.length_nil, ih]
    omega

lemma b64CharOf_ne_61 (v : Nat) : b64CharOf v ≠ 61 := by
  by_cases h : v < 64
  · exact (by decide : ∀ v < 64, b64CharOf v ≠ 61) v h
  · have hlen : b64Alphabet.length ≤ v := by
      have : b64Alphabet.length = 64 := by decide
      omega
    simp [b64CharOf, List.getD, List.getElem?_eq_none hlen]

lemma b32CharOf_ne_61 (v : Nat) : b32CharOf v ≠ 61 := by
  by_cases h : v < 32
  · exact (by decide : ∀ v < 32, b32CharOf v ≠ 61) v h
  · have hlen : b32Alphabet.length ≤ v := by
      have : b32Alphabet.length = 32 := by decide
      omega
    simp [b32CharOf, List.getD, List.getElem?_eq_none hlen]

lemma dropWhile_all_ne (c : Nat) (l : List Nat) (h : ∀ a ∈ l, a ≠ c) :
    l.dropWhile (fun b => b == c) = l := by
  cases l with
  | nil => rfl
  | cons a t =>
    have : (a == c) = false := by
      simp only [beq_eq_false_iff_ne]
      exact h a (by simp)
    simp [List.dropWhile_cons, this]

lemma dropWhile_replicate_append (c : Nat) (k : Nat) (t : List Nat) :
    List.dropWhile (fun b => b == c) (List.replicate k c ++ t) =
      List.dropWhile (fun b => b == c) t := by
  induction k with
  | zero => simp
  | succ n ih => simpa [List.replicate_succ] using ih

lemma pyRstrip_all_ne (c : Nat) (l : List Nat) (h : ∀ a ∈ l, a ≠ c) :
    pyRstrip c l = l := by
  unfold pyRstrip
  rw [dropWhile_all_ne c l.reverse (fun a ha => h a (List.mem_reverse.mp ha))]
  simp

lemma pyRstrip_append_replicate (c : Nat) (l : List Nat) (k : Nat) :
    pyRstrip c (l ++ List.replicate k c) = pyRstrip c l := by
  unfold pyRstrip
  rw [List.reverse_append, List.reverse_replicate, dropWhile_replicate_append]

lemma stripped64 (P : List Nat) :
    pyRstrip 61 (pyB64Encode P) = (b64ChunkVals P).map b64CharOf := by
  unfold pyB64Encode
  rw [pyRstrip_append_replicate]
  apply pyRstrip_all_ne
  intro a ha
  rcases List.mem_map.mp ha with ⟨v, _, rfl⟩
  exact b64CharOf_ne_61 v

lemma stripped32 (P : List Nat) :
    pyRstrip 61 (pyB32Encode P) = (b32ChunkVals P).map b32CharOf := by
  unfold pyB32Encode
  rw [pyRstrip_append_replicate]
  apply pyRstrip_all_ne
  intro a ha
  rcases List.mem_map.mp ha with ⟨v, _, rfl⟩
  exact b32CharOf_ne_61 v

lemma stripped64_length (P : List Nat) :
    (pyRstrip 61 (pyB64Encode P)).length = (4 * P.length + 2) / 3 := by
  rw [stripped64, List.length_map, b64ChunkVals_length]

lemma stripped32_length (P : List Nat) :
    (pyRstrip 61 (pyB32Encode P)).length = (8 * P.length + 4) / 5 := by
  rw [stripped32, List.length_map, b32ChunkVals_length]

/-- C1 (amended): the stripped base64/base32 encodings have lengths
ceil(4n/3) and ceil(8n/5), and build_variants drops exactly one trailing
symbol if and only if that stripped length is not divisible by 3 (base64)
respectively 7 (base32) - not when it is 1 modulo the block group size. -/
theorem C1_trim_rule (P : List Nat) :
    (pyRstrip 61 (pyB64Encode P)).length = (4 * P.length + 2) / 3 ∧
    (pyRstrip 61 (pyB32Encode P)).length = (8 * P.length + 4) / 5 ∧
    ((pyRstrip 61 (pyB64Encode P)).length % 3 = 0 →
      b64patternOf P = pyRstrip 61 (pyB64Encode P)) ∧
    ((pyRstrip 61 (pyB64Encode P)).length % 3 ≠ 0 →
      b64patternOf P = (pyRstrip 61 (pyB64Encode P)).dropLast ∧
      (b64patternOf P).length + 1 = (pyRstrip 61 (pyB64Encode P)).length) ∧
    ((pyRstrip 61 (pyB32Encode P)).length % 7 = 0 →
      b32patternOf P = pyRstrip 61 (pyB32Encode P)) ∧
    ((pyRstrip 61 (pyB32Encode P)).length % 7 ≠ 0 →
      b32patternOf P = (pyRstrip 61 (pyB32Encode P)).dropLast ∧
      (b32patternOf P).length + 1 = (pyRstrip 61 (pyB32Encode P)).length) := by
  refine ⟨stripped64_length P, stripped32_length P, ?_, ?_, ?_, ?_⟩
  · intro h
    simp [b64patternOf, h]
  · intro h
    have hne : (pyRstrip 61 (pyB64Encode P)).length ≠ 0 := fun hz => h (by omega)
    constructor
    · simp [b64patternOf, h]
    · simp [b64patternOf, h, List.length_dropLast]
      omega
  · intro h
    simp [b32patternOf, h]
  · intro h
    have hne : (pyRstrip 61 (pyB32Encode P)).length ≠ 0 := fun hz => h (by omega)
    constructor
    · simp [b32patternOf, h]
    · simp [b32patternOf, h, List.length_dropLast]
      omega

theorem C1_trim_rule_witness :
    ((pyRstrip 61 (pyB64Encode [65])).length % 3 ≠ 0 ∧
      b64patternOf [65] = (pyRstrip 61 (pyB64Encode [65])).dropLast) ∧
    ((pyRstrip 61 (pyB32Encode [65])).length % 7 ≠ 0 ∧
      b32patternOf [65] = (pyRstrip 61 (pyB32Encode [65])).dropLast) :=
  ⟨⟨by decide, ((C1_trim_rule [65]).2.2.2.1 (by decide)).1⟩,
    ⟨by decide, ((C1_trim_rule [65]).2.2.2.2.2 (by decide)).1⟩⟩

/-- C1 (counterexample): for the pattern b'A' the stripped base64 length is
2 (not 1 mod 4) and the stripped base32 length is 2 (not 1 mod 8), so under
the claim no symbol would be dropped; but build_variants drops one trailing
symbol from each, because it tests mod 3 and mod 7 instead. -/
theorem C1_trim_rule_counterexample :
    b64patternOf [65] ≠ pyRstrip 61 (pyB64Encode [65]) ∧
    (pyRstrip 61 (pyB64Encode [65])).length % 4 ≠ 1 ∧
    b32patternOf [65] ≠ pyRstrip 61 (pyB32Encode [65]) ∧
    (pyRstrip 61 (pyB32Encode [65])).length % 8 ≠ 1 := by decide

/-- Validity of a code point sequence as storable in a Python str: below
0x110000 and not a surrogate. -/
def validCps (cps : List Nat) : Prop :=
  ∀ c ∈ cps, c < 1114112 ∧ ¬(55296 ≤ c ∧ c < 57344)

lemma utf8Step_1 (b : Nat) (rest : List Nat) (h : b < 128) :
    utf8Step b rest = some (b, rest) := by
  simp [utf8Step, h]

lemma utf8Step_2 (b c : Nat) (r : List Nat) (h1 : 194 ≤ b) (h2 : b < 224)
    (hc : 128 ≤ c ∧ c < 192) :
    utf8Step b (c :: r) = some ((b - 192) * 64 + (c - 128), r) := by
  have n1 : ¬b < 128 := by omega
  have n2 : ¬b < 194 := by omega
  simp only [utf8Step, if_neg n1, if_neg n2, if_pos h2]
  try simp only []
  rw [if_pos hc]

lemma utf8Step_3 (b c d : Nat) (r : List Nat) (h1 : 224 ≤ b) (h2 : b < 240)
    (hc : (if b = 224 then 160 else 128) ≤ c ∧ c < (if b = 237 then 160 else 192))
    (hd : 128 ≤ d ∧ d < 192) :
    utf8Step b (c :: d :: r) =
      some ((b - 224) * 4096 + (c - 128) * 64 + (d - 128), r) := by
  have n1 : ¬b < 128 := by omega
  have n2 : ¬b < 194 := by omega
  have n3 : ¬b < 224 := by omega
  simp only [utf8Step, if_neg n1, if_neg n2, if_neg n3, if_pos h2]
  try simp only []
  rw [if_pos ⟨hc, hd⟩]

lemma utf8Step_4 (b c d e : Nat) (r : List Nat) (h1 : 240 ≤ b) (h2 : b < 245)
    (hc : (if b = 240 then 144 else 128) ≤ c ∧ c < (if b = 244 then 144 else 192))
    (hd : 128 ≤ d ∧ d < 192) (he : 128 ≤ e ∧ e < 192) :
    utf8Step b (c :: d :: e :: r) =
      some ((b - 240) * 262144 + (c - 128) * 4096 + (d - 128) * 64 + (e - 128), r) := by
  have n1 : ¬b < 128 := by omega
  have n2 : ¬b < 194 := by omega
  have n3 : ¬b < 224 := by omega
  have n4 : ¬b < 240 := by omega
  simp only [utf8Step, if_neg n1, if_neg n2, if_neg n3, if_neg n4, if_pos h2]
  try simp only []
  rw [if_pos ⟨hc, hd, he⟩]

lemma utf8DecodeLoop_cons (f b : Nat) (rest : List Nat) :
    utf8DecodeLoop (f + 1) (b :: rest) =
      match utf8Step b rest with
      | some (c, r) => (utf8DecodeLoop f r).map (c :: ·)
      | none => none := rfl

lemma utf8EncodeChar_length_pos (c : Nat) : 1 ≤ (utf8EncodeChar c).length := by
  unfold utf8EncodeChar
  split_ifs <;> simp

lemma utf8Encode_length_ge (cps : List Nat) : cps.length ≤ (utf8Encode cps).length := by
  induction cps with
  | nil => simp [utf8Encode]
  | cons c rest ih =>
    simp only [utf8Encode, List.flatMap_cons, List.length_append, List.length_cons] at ih ⊢
    have := utf8EncodeChar_length_pos c
    omega

lemma utf8DecodeLoop_encode (cps : List Nat) (h : validCps cps) :
    ∀ fuel, cps.length ≤ fuel → utf8DecodeLoop fuel (utf8Encode cps) = some cps := by
  induction cps with
  | nil =>
    intro fuel hf
    cases fuel <;> rfl
  | cons c rest ih =>
    intro fuel hf
    simp only [List.length_cons] at hf
    obtain ⟨f, rfl⟩ : ∃ f, fuel = f + 1 := ⟨fuel - 1, by omega⟩
    obtain ⟨hlt, hsur⟩ := h c (by simp)
    have hrest : validCps rest := fun x hx => h x (by simp [hx])
    have ihr := ih hrest f (by omega)
    show utf8DecodeLoop (f + 1) (utf8EncodeChar c ++ utf8Encode rest) = some (c :: rest)
    by_cases h1 : c < 128
    · rw [show utf8EncodeChar c = [c] from by simp [utf8EncodeChar, h1]]
      simp only [List.cons_append, List.nil_append]
      rw [utf8DecodeLoop_cons, utf8Step_1 c _ h1]
      try simp only []
      rw [ihr]
      rfl
    · by_cases h2 : c < 2048
      · rw [show utf8EncodeChar c = [192 + c / 64, 128 + c % 64] from by
          simp [utf8EncodeChar, h1, h2]]
        simp only [List.cons_append, List.nil_append]
        rw [utf8DecodeLoop_cons, utf8Step_2 _ _ _ (by omega) (by omega) (by omega)]
        try simp only []
        rw [ihr]
        simp only [Option.map_some', Option.some.injEq, List.cons.injEq]
        exact ⟨by omega, trivial⟩
      · by_cases h3 : c < 65536
        · rw [show utf8EncodeChar c = [224 + c / 4096, 128 + c / 64 % 64, 128 + c % 64] from by
            simp [utf8EncodeChar, h1, h2, h3]]
          simp only [List.cons_append, List.nil_append]
          have hc2 : (if 224 + c / 4096 = 224 then 160 else 128) ≤ 128 + c / 64 % 64 ∧
              128 + c / 64 % 64 < (if 224 + c / 4096 = 237 then 160 else 192) := by
            constructor
            · split
              · omega
              · omega
            · split
              · omega
              · omega
          rw [utf8DecodeLoop_cons, utf8Step_3 _ _ _ _ (by omega) (by omega) hc2 (by omega)]
          try simp only []
          rw [ihr]
          simp only [Option.map_some', Option.some.injEq, List.cons.injEq]
          exact ⟨by omega, trivial⟩
        · rw [show utf8EncodeChar c =
              [240 + c / 262144, 128 + c / 4096 % 64, 128 + c / 64 % 64, 128 + c % 64] from by
            simp [utf8EncodeChar, h1, h2, h3]]
          simp only [List.cons_append, List.nil_append]
          have hc2 : (if 240 + c / 262144 = 240 then 144 else 128) ≤ 128 + c / 4096 % 64 ∧
              128 + c / 4096 % 64 < (if 240 + c / 262144 = 244 then 144 else 192) := by
            constructor
            · split
              · omega
              · omega
            · split
              · omega
              · omega
          rw [utf8DecodeLoop_cons,
            utf8Step_4 _ _ _ _ _ (by omega) (by omega) hc2 (by omega) (by omega)]
          try simp only []
          rw [ihr]
          simp only [Option.map_some', Option.some.injEq, List.cons.injEq]
          exact ⟨by omega, trivial⟩

lemma utf8_roundtrip (cps : List Nat) (h : validCps cps) :
    utf8Decode (utf8Encode cps) = some cps :=
  utf8DecodeLoop_encode cps h _ (utf8Encode_length_ge cps)

lemma utf16DecodeWith_bmp (mk : Nat → Nat → Nat) (b0 b1 : Nat) (rest : List Nat)
    (h : mk b0 b1 < 55296 ∨ 57344 ≤ mk b0 b1) :
    utf16DecodeWith mk (b0 :: b1 :: rest) = (utf16DecodeWith mk rest).map (mk b0 b1 :: ·) := by
  conv_lhs => rw [utf16DecodeWith.eq_def]
  try simp only []
  rw [if_pos h]

lemma utf16DecodeWith_pair (mk : Nat → Nat → Nat) (b0 b1 b2 b3 : Nat) (rest : List Nat)
    (h1 : 55296 ≤ mk b0 b1) (h2 : mk b0 b1 < 56320)
    (h3 : 56320 ≤ mk b2 b3 ∧ mk b2 b3 < 57344) :
    utf16DecodeWith mk (b0 :: b1 :: b2 :: b3 :: rest) =
      (utf16DecodeWith mk rest).map
        ((65536 + (mk b0 b1 - 55296) * 1024 + (mk b2 b3 - 56320)) :: ·) := by
  conv_lhs => rw [utf16DecodeWith.eq_def]
  try simp only []
  rw [if_neg (by omega), if_pos h2]
  try simp only []
  rw [if_pos h3]

lemma utf16_roundtrip_with (f g : Nat → Nat) (mk : Nat → Nat → Nat)
    (hmk : ∀ u, u < 65536 → mk (f u) (g u) = u) (cps : List Nat) (h : validCps cps) :
    utf16DecodeWith mk (cps.flatMap fun c => (utf16Units c).flatMap fun u => [f u, g u]) =
      some cps := by
  induction cps with
  | nil => rfl
  | cons c rest ih =>
    obtain ⟨hlt, hsur⟩ := h c (by simp)
    have hrest : validCps rest := fun x hx => h x (by simp [hx])
    have ihr := ih hrest
    simp only [List.flatMap_cons] at ihr ⊢
    by_cases h1 : c < 65536
    · rw [show utf16Units c = [c] from by simp [utf16Units, h1]]
      simp only [List.flatMap_cons, List.flatMap_nil, List.cons_append, List.nil_append,
        List.append_nil]
      rw [utf16DecodeWith_bmp mk _ _ _ (by rw [hmk c h1]; omega), hmk c h1, ihr]
      rfl
    · rw [show utf16Units c =
          [55296 + (c - 65536) / 1024, 56320 + (c - 65536) % 1024] from by
        simp [utf16Units, h1]]
      have hhi : 55296 + (c - 65536) / 1024 < 65536 := by omega
      have hlo : 56320 + (c - 65536) % 1024 < 65536 := by omega
      simp only [List.flatMap_cons, List.flatMap_nil, List.cons_append, List.nil_append,
        List.append_nil]
      rw [utf16DecodeWith_pair mk _ _ _ _ _
        (by rw [hmk _ hhi]; omega) (by rw [hmk _ hhi]; omega)
        (by rw [hmk _ hlo]; omega), hmk _ hhi, hmk _ hlo, ihr]
      simp only [Option.map_some', Option.some.injEq, List.cons.injEq]
      exact ⟨by omega, trivial⟩

lemma utf32DecodeWith_cons (mk : Nat → Nat → Nat → Nat → Nat) (b0 b1 b2 b3 : Nat)
    (rest : List Nat)
    (h : mk b0 b1 b2 b3 < 1114112 ∧ ¬(55296 ≤ mk b0 b1 b2 b3 ∧ mk b0 b1 b2 b3 < 57344)) :
    utf32DecodeWith mk (b0 :: b1 :: b2 :: b3 :: rest) =
      (utf32DecodeWith mk rest).map (mk b0 b1 b2 b3 :: ·) := by
  conv_lhs => rw [utf32DecodeWith.eq_def]
  try simp only []
  rw [if_pos h]

lemma utf32_roundtrip_with (mk : Nat → Nat → Nat → Nat → Nat) (enc : Nat → List Nat)
    (henc : ∀ c, enc c = [c % 256, c / 256 % 256, c / 65536 % 256, c / 16777216 % 256] ∨
      enc c = [c / 16777216 % 256, c / 65536 % 256, c / 256 % 256, c % 256])
    (hmk : ∀ c, c < 1114112 →
      mk ((enc c).getD 0 0) ((enc c).getD 1 0) ((enc c).getD 2 0) ((enc c).getD 3 0) = c)
    (cps : List Nat) (h : validCps cps) :
    utf32DecodeWith mk (cps.flatMap enc) = some cps := by
  induction cps with
  | nil => rfl
  | cons c rest ih =>
    obtain ⟨hlt, hsur⟩ := h c (by simp)
    have hrest : validCps rest := fun x hx => h x (by simp [hx])
    have ihr := ih hrest
    simp only [List.flatMap_cons] at ihr ⊢
    have hval := hmk c hlt
    rcases henc c with he | he
    · rw [he]
      rw [he] at hval
      simp only [List.getD_cons_zero, List.getD_cons_succ] at hval
      simp only [List.cons_append, List.nil_append]
      rw [utf32DecodeWith_cons mk (c % 256) (c / 256 % 256) (c / 65536 % 256)
        (c / 16777216 % 256) (rest.flatMap enc) (by rw [hval]; exact ⟨hlt, hsur⟩), hval, ihr]
      rfl
    · rw [he]
      rw [he] at hval
      simp only [List.getD_cons_zero, List.getD_cons_succ] at hval
      simp only [List.cons_append, List.nil_append]
      rw [utf32DecodeWith_cons mk (c / 16777216 % 256) (c / 65536 % 256) (c / 256 % 256)
        (c % 256) (rest.flatMap enc) (by rw [hval]; exact ⟨hlt, hsur⟩), hval, ihr]
      rfl

lemma utf16LE_roundtrip (cps : List Nat) (h : validCps cps) :
    utf16DecodeLE (utf16EncodeLE cps) = some cps := by
  have := utf16_roundtrip_with (fun u => u % 256) (fun u => u / 256)
    (fun a b => a + 256 * b)
    (fun u hu => by show u % 256 + 256 * (u / 256) = u; omega) cps h
  exact this

lemma utf16BE_roundtrip (cps : List Nat) (h : validCps cps) :
    utf16DecodeBE (utf16EncodeBE cps) = some cps := by
  have := utf16_roundtrip_with (fun u => u / 256) (fun u => u % 256)
    (fun a b => 256 * a + b)
    (fun u hu => by show 256 * (u / 256) + u % 256 = u; omega) cps h
  exact this

lemma utf16BOM_roundtrip (cps : List Nat) (h : validCps cps) :
    utf16DecodeBOM (utf16EncodeBOM cps) = some cps := by
  show utf16DecodeBOM (255 :: 254 :: utf16EncodeLE cps) = some cps
  rw [show utf16DecodeBOM (255 :: 254 :: utf16EncodeLE cps) =
    utf16DecodeLE (utf16EncodeLE cps) from rfl]
  exact utf16LE_roundtrip cps h

lemma utf32LE_roundtrip (cps : List Nat) (h : validCps cps) :
    utf32DecodeLE (utf32EncodeLE cps) = some cps := by
  have := utf32_roundtrip_with
    (fun a b c d => a + 256 * b + 65536 * c + 16777216 * d)
    (fun c => [c % 256, c / 256 % 256, c / 65536 % 256, c / 16777216 % 256])
    (fun c => Or.inl rfl)
    (fun c hlt => by
      simp only [List.getD_cons_zero, List.getD_cons_succ]
      show c % 256 + 256 * (c / 256 % 256) + 65536 * (c / 65536 % 256) +
        16777216 * (c / 16777216 % 256) = c
      omega) cps h
  exact this

lemma utf32BE_roundtrip (cps : List Nat) (h : validCps cps) :
    utf32DecodeBE (utf32EncodeBE cps) = some cps := by
  have := utf32_roundtrip_with
    (fun a b c d => 16777216 * a + 65536 * b + 256 * c + d)
    (fun c => [c / 16777216 % 256, c / 65536 % 256, c / 256 % 256, c % 256])
    (fun c => Or.inr rfl)
    (fun c hlt => by
      simp only [List.getD_cons_zero, List.getD_cons_succ]
      show 16777216 * (c / 16777216 % 256) + 65536 * (c / 65536 % 256) +
        256 * (c / 256 % 256) + c % 256 = c
      omega) cps h
  exact this

lemma utf32BOM_roundtrip (cps : List Nat) (h : validCps cps) :
    utf32DecodeBOM (utf32EncodeBOM cps) = some cps := by
  show utf32DecodeBOM (255 :: 254 :: 0 :: 0 :: utf32EncodeLE cps) = some cps
  rw [show utf32DecodeBOM (255 :: 254 :: 0 :: 0 :: utf32EncodeLE cps) =
    utf32DecodeLE (utf32EncodeLE cps) from rfl]
  exact utf32LE_roundtrip cps h

lemma codec_roundtrip (c : Codec) (cps : List Nat) (h : validCps cps) :
    codecDecode c (codecEncode c cps) = some cps := by
  cases c
  · exact utf16BOM_roundtrip cps h
  · exact utf16BE_roundtrip cps h
  · exact utf16LE_roundtrip cps h
  · exact utf32BOM_roundtrip cps h
  · exact utf32BE_roundtrip cps h
  · exact utf32LE_roundtrip cps h

lemma utf16EncodeLE_ne_nil (a : Nat) (t : List Nat) : utf16EncodeLE (a :: t) ≠ [] := by
  by_cases h1 : a < 65536 <;> simp [utf16EncodeLE, utf16Units, h1]

lemma utf16EncodeBE_ne_nil (a : Nat) (t : List Nat) : utf16EncodeBE (a :: t) ≠ [] := by
  by_cases h1 : a < 65536 <;> simp [utf16EncodeBE, utf16Units, h1]

lemma utf32EncodeLE_ne_nil (a : Nat) (t : List Nat) : utf32EncodeLE (a :: t) ≠ [] := by
  simp [utf32EncodeLE]

lemma utf32EncodeBE_ne_nil (a : Nat) (t : List Nat) : utf32EncodeBE (a :: t) ≠ [] := by
  simp [utf32EncodeBE]

lemma codecEncode_ne_nil (c : Codec) (cps : List Nat) (h : cps ≠ []) :
    codecEncode c cps ≠ [] := by
  cases cps with
  | nil => exact absurd rfl h
  | cons a t =>
    cases c
    · exact fun hx => by simp [codecEncode, utf16EncodeBOM] at hx
    · exact utf16EncodeBE_ne_nil a t
    · exact utf16EncodeLE_ne_nil a t
    · exact fun hx => by simp [codecEncode, utf32EncodeBOM] at hx
    · exact utf32EncodeBE_ne_nil a t
    · exact utf32EncodeLE_ne_nil a t

lemma codec_decoder_roundtrip (c : Codec) (cps : List Nat) (h : validCps cps)
    (hne : cps ≠ []) :
    codec_decoder c (codecEncode c cps) = some (utf8Encode cps) := by
  have hm : codecEncode c cps ≠ [] := codecEncode_ne_nil c cps hne
  unfold codec_decoder
  obtain ⟨t, ht⟩ : ∃ t, (codecEncode c cps).length = t + 1 := by
    cases hl : (codecEncode c cps).length with
    | zero => exact absurd (List.length_eq_zero.mp hl) hm
    | succ n => exact ⟨n, rfl⟩
  rw [ht]
  simp only [codecTrimLoop]
  rw [show (codecEncode c cps).take (t + 1) = codecEncode c cps from by
    rw [← ht]; exact List.take_length ..]
  rw [codec_roundtrip c cps h]

lemma isHexDigit_hexChar : ∀ v < 16, isHexDigit (hexChar v) = true := by decide

lemma hexVal_hexChar : ∀ v < 16, hexVal (hexChar v) = v := by decide

lemma hexlify_all_hex (l : List Nat) (h : ∀ b ∈ l, b < 256) :
    ∀ c ∈ hexlify l, isHexDigit c = true := by
  intro c hc
  simp only [hexlify, List.mem_flatMap] at hc
  obtain ⟨b, hb, hcm⟩ := hc
  have hb256 := h b hb
  simp only [List.mem_cons, List.not_mem_nil, or_false] at hcm
  rcases hcm with rfl | rfl
  · exact isHexDigit_hexChar _ (by omega)
  · exact isHexDigit_hexChar _ (by omega)

lemma hexlify_length (l : List Nat) : (hexlify l).length = 2 * l.length := by
  induction l with
  | nil => rfl
  | cons b rest ih =>
    simp only [hexlify, List.flatMap_cons, List.length_append, List.length_cons,
      List.length_nil] at ih ⊢
    omega

lemma truncAtFirst_all_ok (bad : Nat → Bool) (l : List Nat)
    (h : ∀ c ∈ l, bad c = false) : truncAtFirst bad l = l := by
  rw [truncAtFirst_eq_takeWhile]
  exact List.takeWhile_eq_self_iff.mpr fun x hx => by simp [h x hx]

lemma pyUnhexlify_hexlify (l : List Nat) (h : ∀ b ∈ l, b < 256) :
    pyUnhexlify (hexlify l) = some l := by
  induction l with
  | nil => rfl
  | cons b rest ih =>
    have hb := h b (by simp)
    have hrest : ∀ x ∈ rest, x < 256 := fun x hx => h x (by simp [hx])
    show pyUnhexlify (hexChar (b / 16) :: hexChar (b % 16) :: hexlify rest) = some (b :: rest)
    simp only [pyUnhexlify, isHexDigit_hexChar _ (by omega : b / 16 < 16),
      isHexDigit_hexChar _ (by omega : b % 16 < 16), Bool.and_self, if_pos, ih hrest,
      Option.map_some', Option.some.injEq, List.cons.injEq]
    refine ⟨?_, trivial⟩
    rw [hexVal_hexChar _ (by omega), hexVal_hexChar _ (by omega)]
    omega

lemma hex_roundtrip (l : List Nat) (h : ∀ b ∈ l, b < 256) :
    hex_decoder (hexlify l) = some l := by
  have htr : truncAtFirst (fun c => !(isHexDigit c)) (hexlify l) = hexlify l :=
    truncAtFirst_all_ok _ _ (fun c hc => by simp [hexlify_all_hex l h c hc])
  simp only [hex_decoder, htr]
  rw [if_neg (by rw [hexlify_length]; omega)]
  exact pyUnhexlify_hexlify l h

lemma binPattern_chars (l : List Nat) :
    ∀ c ∈ binPattern l, c = 48 ∨ c = 49 := by
  intro c hc
  simp only [binPattern, List.mem_flatMap, List.mem_map] at hc
  obtain ⟨b, _, x, hx, rfl⟩ := hc
  simp only [byteBits, List.mem_cons, List.not_mem_nil, or_false] at hx
  rcases hx with rfl | rfl | rfl | rfl | rfl | rfl | rfl | rfl <;> omega

lemma binPattern_length (l : List Nat) : (binPattern l).length = 8 * l.length := by
  induction l with
  | nil => rfl
  | cons b rest ih =>
    show ((byteBits b).map (fun x => 48 + x) ++ binPattern rest).length = 8 * (b :: rest).length
    rw [List.length_append, List.length_map, ih, show (byteBits b).length = 8 from rfl]
    simp only [List.length_cons]
    ring

lemma bits_foldl (b acc : Nat) (hb : b < 256) :
    List.foldl (fun a c => 2 * a + (c - 48)) acc ((byteBits b).map (fun x => 48 + x)) =
      256 * acc + b := by
  simp only [byteBits, List.map_cons, List.map_nil, List.foldl_cons, List.foldl_nil]
  omega

lemma binPattern_foldl (l : List Nat) (h : ∀ b ∈ l, b < 256) :
    ∀ acc, List.foldl (fun a c => 2 * a + (c - 48)) acc (binPattern l) =
      l.foldl (fun a b => 256 * a + b) acc := by
  induction l with
  | nil => intro acc; rfl
  | cons b rest ih =>
    intro acc
    have hb := h b (by simp)
    have hrest : ∀ x ∈ rest, x < 256 := fun x hx => h x (by simp [hx])
    show List.foldl _ acc ((byteBits b).map (fun x => 48 + x) ++ binPattern rest) = _
    rw [List.foldl_append, bits_foldl b acc hb]
    exact ih hrest (256 * acc + b)

lemma bytesToNat_lt (l : List Nat) (h : ∀ b ∈ l, b < 256) :
    l.foldl (fun a b => 256 * a + b) 0 < 256 ^ l.length := by
  induction l using List.reverseRecOn with
  | nil => simp
  | append_singleton Q b ih =>
    have hb : b < 256 := h b (by simp)
    have hQ : ∀ x ∈ Q, x < 256 := fun x hx => h x (by simp [hx])
    rw [List.foldl_append, List.length_append]
    simp only [List.foldl_cons, List.foldl_nil, List.length_cons, List.length_nil,
      Nat.zero_add]
    have hi := ih hQ
    have h1 : 256 * (Q.foldl (fun a b => 256 * a + b) 0) + b + 1 ≤
        256 * (Q.foldl (fun a b => 256 * a + b) 0 + 1) := by omega
    have h2 : Q.foldl (fun a b => 256 * a + b) 0 + 1 ≤ 256 ^ Q.length := hi
    have h3 : 256 * (Q.foldl (fun a b => 256 * a + b) 0 + 1) ≤ 256 * 256 ^ Q.length :=
      Nat.mul_le_mul_left 256 h2
    have h4 : 256 ^ (Q.length + 1) = 256 * 256 ^ Q.length := by
      rw [pow_succ]
      ring
    omega

lemma natToBEBytes_foldl (l : List Nat) (h : ∀ b ∈ l, b < 256) :
    natToBEBytes (l.foldl (fun a b => 256 * a + b) 0) l.length = l := by
  induction l using List.reverseRecOn with
  | nil => rfl
  | append_singleton Q b ih =>
    have hb : b < 256 := h b (by simp)
    have hQ : ∀ x ∈ Q, x < 256 := fun x hx => h x (by simp [hx])
    rw [List.foldl_append, List.length_append]
    simp only [List.foldl_cons, List.foldl_nil, List.length_cons, List.length_nil]
    show natToBEBytes (256 * Q.foldl (fun a b => 256 * a + b) 0 + b) (Q.length + 1) = Q ++ [b]
    simp only [natToBEBytes]
    rw [show (256 * Q.foldl (fun a b => 256 * a + b) 0 + b) / 256 =
        Q.foldl (fun a b => 256 * a + b) 0 by omega,
      show (256 * Q.foldl (fun a b => 256 * a + b) 0 + b) % 256 = b by omega, ih hQ]

lemma binary_roundtrip (l : List Nat) (h : ∀ b ∈ l, b < 256) (hne : l ≠ []) :
    binary_decoder (binPattern l) = some l := by
  have htr : truncAtFirst (fun c => !(c == 48 || c == 49)) (binPattern l) = binPattern l :=
    truncAtFirst_all_ok _ _ (fun c hc => by
      rcases binPattern_chars l c hc with rfl | rfl <;> rfl)
  simp only [binary_decoder, htr]
  have hlen := binPattern_length l
  rw [show (binPattern l).length - (binPattern l).length % 8 = (binPattern l).length by omega,
    List.take_length]
  unfold bitstring_to_bytes pyIntBase2
  have hempty : (binPattern l).isEmpty = false := by
    rw [List.isEmpty_eq_false_iff_exists_mem]
    cases l with
    | nil => exact absurd rfl hne
    | cons b rest => exact ⟨48 + b / 128 % 2, by simp [binPattern, byteBits]⟩
  rw [hempty]
  simp only [Bool.false_eq_true, if_false]
  rw [if_pos (by
    rw [List.all_eq_true]
    intro c hc
    rcases binPattern_chars l c hc with rfl | rfl <;> rfl)]
  simp only [Option.bind_some, Option.some_bind]
  rw [binPattern_foldl l h 0]
  unfold pyToBytesBE
  rw [hlen, show 8 * l.length / 8 = l.length by omega]
  rw [if_pos (bytesToNat_lt l h)]
  rw [natToBEBytes_foldl l h]

lemma b64DecodeVals_chunkVals : ∀ P : List Nat, (∀ b ∈ P, b < 256) →
    b64DecodeVals (b64ChunkVals P) = P
  | [], _ => rfl
  | [a], h => by
    have ha : a < 256 := h a (by simp)
    show b64DecodeVals (b64ChunkVals [a]) = [a]
    simp only [b64ChunkVals, b64DecodeVals, List.cons.injEq]
    exact ⟨by omega, trivial⟩
  | [a, b], h => by
    have ha : a < 256 := h a (by simp)
    have hb : b < 256 := h b (by simp)
    show b64DecodeVals (b64ChunkVals [a, b]) = [a, b]
    simp only [b64ChunkVals, b64DecodeVals, List.cons.injEq]
    exact ⟨by omega, by omega, trivial⟩
  | a :: b :: c :: rest, h => by
    have ha : a < 256 := h a (by simp)
    have hb : b < 256 := h b (by simp)
    have hc : c < 256 := h c (by simp)
    have ih := b64DecodeVals_chunkVals rest (fun x hx => h x (by simp [hx]))
    show b64DecodeVals ([a / 4, a % 4 * 16 + b / 16, b % 16 * 4 + c / 64, c % 64] ++
      b64ChunkVals rest) = a :: b :: c :: rest
    simp only [List.cons_append, List.nil_append, b64DecodeVals, List.cons.injEq]
    exact ⟨by omega, by omega, by omega, ih⟩

lemma b64ChunkVals_lt : ∀ P : List Nat, (∀ b ∈ P, b < 256) →
    ∀ v ∈ b64ChunkVals P, v < 64
  | [], _ => by simp [b64ChunkVals]
  | [a], h => by
    have ha : a < 256 := h a (by simp)
    simp only [b64ChunkVals, List.mem_cons, List.not_mem_nil, or_false]
    rintro v (rfl | rfl) <;> omega
  | [a, b], h => by
    have ha : a < 256 := h a (by simp)
    have hb : b < 256 := h b (by simp)
    simp only [b64ChunkVals, List.mem_cons, List.not_mem_nil, or_false]
    rintro v (rfl | rfl | rfl) <;> omega
  | a :: b :: c :: rest, h => by
    have ha : a < 256 := h a (by simp)
    have hb : b < 256 := h b (by simp)
    have hc : c < 256 := h c (by simp)
    have ih := b64ChunkVals_lt rest (fun x hx => h x (by simp [hx]))
    intro v hv
    simp only [b64ChunkVals, List.cons_append, List.nil_append, List.mem_cons] at hv
    rcases hv with rfl | rfl | rfl | rfl | hv
    · omega
    · omega
    · omega
    · omega
    · exact ih v hv

lemma b64ValOf_b64CharOf : ∀ v < 64, b64ValOf (b64CharOf v) = v := by decide

lemma isB64Char_b64CharOf : ∀ v < 64, isB64Char (b64CharOf v) = true := by decide

lemma map_b64ValOf_charOf (vals : List Nat) (hv : ∀ v ∈ vals, v < 64) :
    (vals.map b64CharOf).map b64ValOf = vals := by
  rw [List.map_map]
  conv_rhs => rw [← List.map_id vals]
  exact List.map_congr_left fun v hvm => b64ValOf_b64CharOf v (hv v hvm)

lemma filter_b64alpha (vals : List Nat) (hv : ∀ v ∈ vals, v < 64) :
    (vals.map b64CharOf).filter (fun c => isB64Char c || c == 61) = vals.map b64CharOf := by
  apply List.filter_eq_self.mpr
  intro c hc
  rcases List.mem_map.mp hc with ⟨v, hvm, rfl⟩
  simp [isB64Char_b64CharOf v (hv v hvm)]

lemma takeWhile_b64alpha (vals : List Nat) (hv : ∀ v ∈ vals, v < 64) :
    (vals.map b64CharOf).takeWhile (fun c => c != 61) = vals.map b64CharOf := by
  apply List.takeWhile_eq_self_iff.mpr
  intro c hc
  rcases List.mem_map.mp hc with ⟨v, _, rfl⟩
  simp [b64CharOf_ne_61 v]

lemma takeWhile_append_all (p : Nat → Bool) (l1 l2 : List Nat)
    (h : ∀ x ∈ l1, p x = true) : (l1 ++ l2).takeWhile p = l1 ++ l2.takeWhile p := by
  induction l1 with
  | nil => simp
  | cons a t ih =>
    simp only [List.cons_append, List.takeWhile_cons, h a (by simp)]
    rw [ih fun x hx => h x (by simp [hx])]
    simp

lemma pyB64Decode_alpha (vals : List Nat) (hv : ∀ v ∈ vals, v < 64) :
    pyB64Decode (vals.map b64CharOf) =
      if vals.length % 4 = 1 then none
      else if vals.length % 4 = 0 then some (b64DecodeVals vals) else none := by
  simp only [pyB64Decode, filter_b64alpha vals hv, takeWhile_b64alpha vals hv,
    List.length_map, map_b64ValOf_charOf vals hv]
  by_cases h1 : vals.length % 4 = 1 <;> simp [h1]

lemma pyB64Decode_padded2 (vals : List Nat) (hv : ∀ v ∈ vals, v < 64)
    (h2 : vals.length % 4 = 2) :
    pyB64Decode (vals.map b64CharOf ++ [61, 61]) = some (b64DecodeVals vals) := by
  have hfilter : (vals.map b64CharOf ++ [61, 61]).filter
      (fun c => isB64Char c || c == 61) = vals.map b64CharOf ++ [61, 61] := by
    rw [List.filter_append, filter_b64alpha vals hv]
    rfl
  have htake : (vals.map b64CharOf ++ [61, 61]).takeWhile (fun c => c != 61) =
      vals.map b64CharOf := by
    rw [takeWhile_append_all _ _ _ (fun x hx => by
      rcases List.mem_map.mp hx with ⟨v, _, rfl⟩
      simp [b64CharOf_ne_61 v])]
    simp
  simp only [pyB64Decode, hfilter, htake, List.length_map, map_b64ValOf_charOf vals hv]
  rw [if_neg (by omega)]
  rw [if_neg (by rw [List.length_append, List.length_map]; simp)]
  rw [if_pos h2]
  rw [if_pos (by
    rw [List.getElem?_append_right (by rw [List.length_map]; omega)]
    rw [List.length_map]
    simp)]

lemma pyB64Decode_padded3 (vals : List Nat) (hv : ∀ v ∈ vals, v < 64)
    (h3 : vals.length % 4 = 3) :
    pyB64Decode (vals.map b64CharOf ++ [61]) = some (b64DecodeVals vals) := by
  have hfilter : (vals.map b64CharOf ++ [61]).filter
      (fun c => isB64Char c || c == 61) = vals.map b64CharOf ++ [61] := by
    rw [List.filter_append, filter_b64alpha vals hv]
    rfl
  have htake : (vals.map b64CharOf ++ [61]).takeWhile (fun c => c != 61) =
      vals.map b64CharOf := by
    rw [takeWhile_append_all _ _ _ (fun x hx => by
      rcases List.mem_map.mp hx with ⟨v, _, rfl⟩
      simp [b64CharOf_ne_61 v])]
    simp
  simp only [pyB64Decode, hfilter, htake, List.length_map, map_b64ValOf_charOf vals hv]
  rw [if_neg (by omega)]
  rw [if_neg (by rw [List.length_append, List.length_map]; simp)]
  rw [if_neg (by omega)]

lemma b64ChunkVals_mod4 (P : List Nat) : (b64ChunkVals P).length % 4 ≠ 1 := by
  rw [b64ChunkVals_length]
  omega

lemma b64_roundtrip (P : List Nat) (hP : ∀ b ∈ P, b < 256) (hne : P ≠ [])
    (hmod : (pyRstrip 61 (pyB64Encode P)).length % 3 = 0) :
    b64_decoder (b64patternOf P) = some P := by
  have hw := stripped64 P
  have hvals := b64ChunkVals_lt P hP
  have hdec := b64DecodeVals_chunkVals P hP
  have hmod' : ((b64ChunkVals P).map b64CharOf).length % 3 = 0 := by
    rw [← hw]
    exact hmod
  have hmod2 : (b64ChunkVals P).length % 3 = 0 := by
    rw [List.length_map] at hmod'
    exact hmod'
  have hpat : b64patternOf P = (b64ChunkVals P).map b64CharOf := by
    simp only [b64patternOf, hw]
    rw [if_neg (by simp [hmod2])]
  have hmod4 := b64ChunkVals_mod4 P
  have hlen2 : 2 ≤ (b64ChunkVals P).length := by
    rw [b64ChunkVals_length]
    have : 1 ≤ P.length := List.length_pos.mpr hne
    omega
  unfold b64_decoder
  rw [hpat, pyB64Decode_alpha _ hvals]
  by_cases h0 : (b64ChunkVals P).length % 4 = 0
  · rw [if_neg hmod4, if_pos h0]
    try simp only []
    rw [hdec]
  · rw [if_neg hmod4, if_neg h0]
    try simp only []
    rw [List.length_map]
    obtain ⟨t, hT⟩ : ∃ t, (b64ChunkVals P).length = t + 1 :=
      ⟨(b64ChunkVals P).length - 1, by omega⟩
    rw [hT]
    simp only [b64TrimLoop]
    rw [if_neg (by omega)]
    rw [show ((b64ChunkVals P).map b64CharOf).take (t + 1) =
      (b64ChunkVals P).map b64CharOf from by
        rw [← hT, ← List.length_map (f := b64CharOf)]
        exact List.take_length ..]
    have h23 : (b64ChunkVals P).length % 4 = 2 ∨ (b64ChunkVals P).length % 4 = 3 := by
      omega
    rcases h23 with h2 | h2
    · rw [show pyB64Pad ((b64ChunkVals P).map b64CharOf) =
        (b64ChunkVals P).map b64CharOf ++ [61, 61] from by
          unfold pyB64Pad
          rw [List.length_map]
          rw [show (4 - (b64ChunkVals P).length % 4) % 4 = 2 by omega]
          rfl]
      rw [pyB64Decode_padded2 _ hvals h2]
      try simp only []
      rw [hdec]
    · rw [show pyB64Pad ((b64ChunkVals P).map b64CharOf) =
        (b64ChunkVals P).map b64CharOf ++ [61] from by
          unfold pyB64Pad
          rw [List.length_map]
          rw [show (4 - (b64ChunkVals P).length % 4) % 4 = 1 by omega]
          rfl]
      rw [pyB64Decode_padded3 _ hvals h2]
      try simp only []
      rw [hdec]

lemma b32DecodeVals_chunkVals : ∀ P : List Nat, (∀ b ∈ P, b < 256) →
    b32DecodeVals (b32ChunkVals P) = P
  | [], _ => rfl
  | [a], h => by
    have ha : a < 256 := h a (by simp)
    show b32DecodeVals (b32ChunkVals [a]) = [a]
    simp only [b32ChunkVals, b32DecodeVals, List.cons.injEq]
    exact ⟨by omega, trivial⟩
  | [a, b], h => by
    have ha : a < 256 := h a (by simp)
    have hb : b < 256 := h b (by simp)
    show b32DecodeVals (b32ChunkVals [a, b]) = [a, b]
    simp only [b32ChunkVals, b32DecodeVals, List.cons.injEq]
    exact ⟨by omega, by omega, trivial⟩
  | [a, b, c], h => by
    have ha : a < 256 := h a (by simp)
    have hb : b < 256 := h b (by simp)
    have hc : c < 256 := h c (by simp)
    show b32DecodeVals (b32ChunkVals [a, b, c]) = [a, b, c]
    simp only [b32ChunkVals, b32DecodeVals, List.cons.injEq]
    exact ⟨by omega, by omega, by omega, trivial⟩
  | [a, b, c, d], h => by
    have ha : a < 256 := h a (by simp)
    have hb : b < 256 := h b (by simp)
    have hc : c < 256 := h c (by simp)
    have hd : d < 256 := h d (by simp)
    show b32DecodeVals (b32ChunkVals [a, b, c, d]) = [a, b, c, d]
    simp only [b32ChunkVals, b32DecodeVals, List.cons.injEq]
    exact ⟨by omega, by omega, by omega, by omega, trivial⟩
  | a :: b :: c :: d :: e :: rest, h => by
    have ha : a < 256 := h a (by simp)
    have hb : b < 256 := h b (by simp)
    have hc : c < 256 := h c (by simp)
    have hd : d < 256 := h d (by simp)
    have he : e < 256 := h e (by simp)
    have ih := b32DecodeVals_chunkVals rest (fun x hx => h x (by simp [hx]))
    show b32DecodeVals ([a / 8, a % 8 * 4 + b / 64, b / 2 % 32, b % 2 * 16 + c / 16,
      c % 16 * 2 + d / 128, d / 4 % 32, d % 4 * 8 + e / 32, e % 32] ++
      b32ChunkVals rest) = a :: b :: c :: d :: e :: rest
    simp only [List.cons_append, List.nil_append, b32DecodeVals, List.cons.injEq]
    exact ⟨by omega, by omega, by omega, by omega, by omega, ih⟩

lemma b32ChunkVals_lt : ∀ P : List Nat, (∀ b ∈ P, b < 256) →
    ∀ v ∈ b32ChunkVals P, v < 32
  | [], _ => by simp [b32ChunkVals]
  | [a], h => by
    have ha : a < 256 := h a (by simp)
    simp only [b32ChunkVals, List.mem_cons, List.not_mem_nil, or_false]
    rintro v (rfl | rfl) <;> omega
  | [a, b], h => by
    have ha : a < 256 := h a (by simp)
    have hb : b < 256 := h b (by simp)
    simp only [b32ChunkVals, List.mem_cons, List.not_mem_nil, or_false]
    rintro v (rfl | rfl | rfl | rfl) <;> omega
  | [a, b, c], h => by
    have ha : a < 256 := h a (by simp)
    have hb : b < 256 := h b (by simp)
    have hc : c < 256 := h c (by simp)
    simp only [b32ChunkVals, List.mem_cons, List.not_mem_nil, or_false]
    rintro v (rfl | rfl | rfl | rfl | rfl) <;> omega
  | [a, b, c, d], h => by
    have ha : a < 256 := h a (by simp)
    have hb : b < 256 := h b (by simp)
    have hc : c < 256 := h c (by simp)
    have hd : d < 256 := h d (by simp)
    simp only [b32ChunkVals, List.mem_cons, List.not_mem_nil, or_false]
    rintro v (rfl | rfl | rfl | rfl | rfl | rfl | rfl) <;> omega
  | a :: b :: c :: d :: e :: rest, h => by
    have ha : a < 256 := h a (by simp)
    have hb : b < 256 := h b (by simp)
    have hc : c < 256 := h c (by simp)
    have hd : d < 256 := h d (by simp)
    have he : e < 256 := h e (by simp)
    have ih := b32ChunkVals_lt rest (fun x hx => h x (by simp [hx]))
    intro v hv
    simp only [b32ChunkVals, List.cons_append, List.nil_append, List.mem_cons] at hv
    rcases hv with rfl | rfl | rfl | rfl | rfl | rfl | rfl | rfl | hv
    · omega
    · omega
    · omega
    · omega
    · omega
    · omega
    · omega
    · omega
    · exact ih v hv

lemma b32ValOf_b32CharOf : ∀ v < 32, b32ValOf (b32CharOf v) = v := by decide

lemma isB32Char_b32CharOf : ∀ v < 32, isB32Char (b32CharOf v) = true := by decide

lemma map_b32ValOf_charOf (vals : List Nat) (hv : ∀ v ∈ vals, v < 32) :
    (vals.map b32CharOf).map b32ValOf = vals := by
  rw [List.map_map]
  conv_rhs => rw [← List.map_id vals]
  exact List.map_congr_left fun v hvm => b32ValOf_b32CharOf v (hv v hvm)

lemma pyRstrip_b32alpha (vals : List Nat) (hv : ∀ v ∈ vals, v < 32) (k : Nat) :
    pyRstrip 61 (vals.map b32CharOf ++ List.replicate k 61) = vals.map b32CharOf := by
  rw [pyRstrip_append_replicate]
  apply pyRstrip_all_ne
  intro a ha
  rcases List.mem_map.mp ha with ⟨v, _, rfl⟩
  exact b32CharOf_ne_61 v

lemma all_b32alpha (vals : List Nat) (hv : ∀ v ∈ vals, v < 32) :
    (vals.map b32CharOf).all isB32Char = true := by
  rw [List.all_eq_true]
  intro c hc
  rcases List.mem_map.mp hc with ⟨v, hvm, rfl⟩
  exact isB32Char_b32CharOf v (hv v hvm)

lemma pyB32Decode_padded (vals : List Nat) (hv : ∀ v ∈ vals, v < 32)
    (hmod : vals.length % 8 = 0 ∨ vals.length % 8 = 2 ∨ vals.length % 8 = 4 ∨
      vals.length % 8 = 5 ∨ vals.length % 8 = 7) :
    pyB32Decode (vals.map b32CharOf ++ List.replicate ((8 - vals.length % 8) % 8) 61) =
      some (b32DecodeVals vals) := by
  have hslen : (vals.map b32CharOf ++ List.replicate ((8 - vals.length % 8) % 8) 61).length =
      vals.length + (8 - vals.length % 8) % 8 := by
    rw [List.length_append, List.length_map, List.length_replicate]
  simp only [pyB32Decode, pyRstrip_b32alpha vals hv, hslen, List.length_map]
  rw [if_neg (by omega)]
  rw [if_neg (by rw [all_b32alpha vals hv]; simp)]
  rw [if_pos (by omega)]
  rw [map_b32ValOf_charOf vals hv]

lemma pyB32Decode_alpha (vals : List Nat) (hv : ∀ v ∈ vals, v < 32) :
    pyB32Decode (vals.map b32CharOf) =
      if vals.length % 8 = 0 then some (b32DecodeVals vals) else none := by
  by_cases h : vals.length % 8 = 0
  · have := pyB32Decode_padded vals hv (Or.inl h)
    rw [h] at this
    simp only [Nat.sub_zero, Nat.mod_self, List.replicate_zero, List.append_nil] at this
    simp [h, this]
  · simp only [pyB32Decode]
    rw [if_pos (by rw [List.length_map]; omega)]
    simp [h]

lemma b32ChunkVals_mod8 (P : List Nat) :
    (b32ChunkVals P).length % 8 = 0 ∨ (b32ChunkVals P).length % 8 = 2 ∨
      (b32ChunkVals P).length % 8 = 4 ∨ (b32ChunkVals P).length % 8 = 5 ∨
      (b32ChunkVals P).length % 8 = 7 := by
  rw [b32ChunkVals_length]
  omega

lemma b32_roundtrip (P : List Nat) (hP : ∀ b ∈ P, b < 256) (hne : P ≠ [])
    (hmod : (pyRstrip 61 (pyB32Encode P)).length % 7 = 0) :
    b32_decoder (b32patternOf P) = some P := by
  have hw := stripped32 P
  have hvals := b32ChunkVals_lt P hP
  have hdec := b32DecodeVals_chunkVals P hP
  have hmod' : ((b32ChunkVals P).map b32CharOf).length % 7 = 0 := by
    rw [← hw]
    exact hmod
  have hmod2 : (b32ChunkVals P).length % 7 = 0 := by
    rw [List.length_map] at hmod'
    exact hmod'
  have hpat : b32patternOf P = (b32ChunkVals P).map b32CharOf := by
    simp only [b32patternOf, hw]
    rw [if_neg (by simp [hmod2])]
  have hmod8 := b32ChunkVals_mod8 P
  have hlen2 : 2 ≤ (b32ChunkVals P).length := by
    rw [b32ChunkVals_length]
    have : 1 ≤ P.length := List.length_pos.mpr hne
    omega
  unfold b32_decoder
  rw [hpat, pyB32Decode_alpha _ hvals]
  by_cases h0 : (b32ChunkVals P).length % 8 = 0
  · rw [if_pos h0]
    try simp only []
    rw [hdec]
  · rw [if_neg h0]
    try simp only []
    rw [List.length_map]
    obtain ⟨t, hT⟩ : ∃ t, (b32ChunkVals P).length = t + 1 :=
      ⟨(b32ChunkVals P).length - 1, by omega⟩
    rw [hT]
    simp only [b32TrimLoop]
    rw [if_neg (by omega)]
    rw [show ((b32ChunkVals P).map b32CharOf).take (t + 1) =
      (b32ChunkVals P).map b32CharOf from by
        rw [← hT, ← List.length_map (f := b32CharOf)]
        exact List.take_length ..]
    rw [show pyB32Pad ((b32ChunkVals P).map b32CharOf) =
      (b32ChunkVals P).map b32CharOf ++
        List.replicate ((8 - (b32ChunkVals P).length % 8) % 8) 61 from by
      unfold pyB32Pad
      rw [List.length_map]]
    rw [pyB32Decode_padded _ hvals hmod8]
    try simp only []
    rw [hdec]

lemma utf8EncodeChar_lt_256 (c : Nat) (h : c < 1114112) :
    ∀ b ∈ utf8EncodeChar c, b < 256 := by
  intro b hb
  unfold utf8EncodeChar at hb
  split_ifs at hb with h1 h2 h3 <;>
    simp only [List.mem_cons, List.not_mem_nil, or_false] at hb <;> omega

lemma utf8Encode_lt_256 (cps : List Nat) (h : validCps cps) :
    ∀ b ∈ utf8Encode cps, b < 256 := by
  intro b hb
  simp only [utf8Encode, List.mem_flatMap] at hb
  obtain ⟨c, hc, hbc⟩ := hb
  exact utf8EncodeChar_lt_256 c (h c hc).1 b hbc

lemma utf8Encode_ne_nil (cps : List Nat) (h : cps ≠ []) : utf8Encode cps ≠ [] := by
  cases cps with
  | nil => exact absurd rfl h
  | cons c r =>
    intro hx
    have h1 := utf8EncodeChar_length_pos c
    have h2 : (utf8Encode (c :: r)).length = 0 := by rw [hx]; rfl
    simp only [utf8Encode, List.flatMap_cons, List.length_append] at h2
    omega

/-- C2 (amended): applying a variant's decoder to its own search bytes
returns exactly the pattern for the identity, XOR (all keys 1..255), hex
text, binary text and all six UTF-16/32 variants; for ROT13/ROT47 it holds
when the pattern is ASCII; for base64/base32 it holds exactly when the
stripped encoding length is divisible by 3 respectively 7 (otherwise one
symbol was trimmed and the decoder returns a strict prefix).  The raw-hex
and raw-binary variants never satisfy the round-trip (see the
counterexample). -/
theorem C2_roundtrip (cps : List Nat) (hne : cps ≠ []) (hv : validCps cps) :
    applyDec Dec.identity (utf8Encode cps) = Dres.ok (utf8Encode cps) ∧
    (∀ k < 256, 1 ≤ k →
      applyDec (Dec.xor k) (xorPattern k (utf8Encode cps)) = Dres.ok (utf8Encode cps)) ∧
    applyDec Dec.hex (hexlify (utf8Encode cps)) = Dres.ok (utf8Encode cps) ∧
    applyDec Dec.binary (binPattern (utf8Encode cps)) = Dres.ok (utf8Encode cps) ∧
    (∀ c ∈ codecList,
      applyDec (Dec.codec c) (codecEncode c cps) = Dres.ok (utf8Encode cps)) ∧
    ((∀ b ∈ utf8Encode cps, b < 128) →
      applyDec Dec.rot13 (crypt_rot13 (utf8Encode cps)) = Dres.ok (utf8Encode cps) ∧
      applyDec Dec.rot47 (crypt_rot47 (utf8Encode cps)) = Dres.ok (utf8Encode cps)) ∧
    ((pyRstrip 61 (pyB64Encode (utf8Encode cps))).length % 3 = 0 →
      applyDec Dec.b64 (b64patternOf (utf8Encode cps)) = Dres.ok (utf8Encode cps)) ∧
    ((pyRstrip 61 (pyB32Encode (utf8Encode cps))).length % 7 = 0 →
      applyDec Dec.b32 (b32patternOf (utf8Encode cps)) = Dres.ok (utf8Encode cps)) := by
  have hlt := utf8Encode_lt_256 cps hv
  have hPne := utf8Encode_ne_nil cps hne
  refine ⟨rfl, ?_, ?_, ?_, ?_, ?_, ?_, ?_⟩
  · intro k _ _
    simp [applyDec, xorPattern, List.map_map, Function.comp_def, xor_xor_cancel]
  · simp [applyDec, hex_roundtrip (utf8Encode cps) hlt]
  · simp [applyDec, binary_roundtrip (utf8Encode cps) hlt hPne]
  · intro c _
    simp [applyDec, codec_decoder_roundtrip c cps hv hne]
  · intro hascii
    constructor
    · simp [applyDec, crypt_rot13_invol (utf8Encode cps) hascii]
    · simp [applyDec, crypt_rot47_invol (utf8Encode cps) hascii]
  · intro hm
    simp [applyDec, b64_roundtrip (utf8Encode cps) hlt hPne hm]
  · intro hm
    simp [applyDec, b32_roundtrip (utf8Encode cps) hlt hPne hm]

theorem C2_roundtrip_witness :
    ([65, 66] ≠ ([] : List Nat)) ∧ validCps [65, 66] ∧
    (applyDec Dec.identity (utf8Encode [65, 66]) = Dres.ok (utf8Encode [65, 66]) ∧
    (∀ k < 256, 1 ≤ k →
      applyDec (Dec.xor k) (xorPattern k (utf8Encode [65, 66])) =
        Dres.ok (utf8Encode [65, 66])) ∧
    applyDec Dec.hex (hexlify (utf8Encode [65, 66])) = Dres.ok (utf8Encode [65, 66]) ∧
    applyDec Dec.binary (binPattern (utf8Encode [65, 66])) = Dres.ok (utf8Encode [65, 66]) ∧
    (∀ c ∈ codecList,
      applyDec (Dec.codec c) (codecEncode c [65, 66]) = Dres.ok (utf8Encode [65, 66])) ∧
    ((∀ b ∈ utf8Encode [65, 66], b < 128) →
      applyDec Dec.rot13 (crypt_rot13 (utf8Encode [65, 66])) =
        Dres.ok (utf8Encode [65, 66]) ∧
      applyDec Dec.rot47 (crypt_rot47 (utf8Encode [65, 66])) =
        Dres.ok (utf8Encode [65, 66])) ∧
    ((pyRstrip 61 (pyB64Encode (utf8Encode [65, 66]))).length % 3 = 0 →
      applyDec Dec.b64 (b64patternOf (utf8Encode [65, 66])) =
        Dres.ok (utf8Encode [65, 66])) ∧
    ((pyRstrip 61 (pyB32Encode (utf8Encode [65, 66]))).length % 7 = 0 →
      applyDec Dec.b32 (b32patternOf (utf8Encode [65, 66])) =
        Dres.ok (utf8Encode [65, 66]))) :=
  ⟨by decide, by unfold validCps; decide,
    C2_roundtrip [65, 66] (by decide) (by unfold validCps; decide)⟩

/-- C2 (counterexample): the raw-hex variant decodes its own search bytes to
the empty byte string (the Python 3 pattern equals the hex text pattern, so
every byte is above 0xf and the decoder truncates everything); the raw-binary
variant raises ValueError on its own search bytes; and the base64 variant for
the pattern FLAG-brace decodes its trimmed search bytes to FLAG, not the
pattern. -/
theorem C2_roundtrip_counterexample :
    applyDec Dec.rawHex (rawHexPattern (utf8Encode [65])) ≠ Dres.ok (utf8Encode [65]) ∧
    applyDec Dec.rawHex (rawHexPattern (utf8Encode [65])) = Dres.ok [] ∧
    applyDec Dec.rawBinary (rawBinPattern (utf8Encode [65])) = Dres.exc "ValueError" ∧
    applyDec Dec.b64 (b64patternOf (utf8Encode [70, 76, 65, 71, 123])) =
      Dres.ok [70, 76, 65, 71] := by decide

lemma utf8Decode_ne_nil (P cps : List Nat) (hP : P ≠ []) (h : utf8Decode P = some cps) :
    cps ≠ [] := by
  cases P with
  | nil => exact absurd rfl hP
  | cons b rest =>
    simp only [utf8Decode, List.length_cons, utf8DecodeLoop] at h
    cases hs : utf8Step b rest with
    | none => rw [hs] at h; exact absurd h (by simp)
    | some p =>
      obtain ⟨c, r⟩ := p
      rw [hs] at h
      rcases Option.map_eq_some'.mp h with ⟨l, _, rfl⟩
      simp

lemma b64patternOf_ne_nil (P : List Nat) (hP : P ≠ []) : b64patternOf P ≠ [] := by
  have hn : 1 ≤ P.length := List.length_pos.mpr hP
  have hs := stripped64_length P
  apply List.ne_nil_of_length_pos
  simp only [b64patternOf]
  split
  · rw [List.length_dropLast, hs]; omega
  · rw [hs]; omega

lemma b32patternOf_ne_nil (P : List Nat) (hP : P ≠ []) : b32patternOf P ≠ [] := by
  have hn : 1 ≤ P.length := List.length_pos.mpr hP
  have hs := stripped32_length P
  apply List.ne_nil_of_length_pos
  simp only [b32patternOf]
  split
  · rw [List.length_dropLast, hs]; omega
  · rw [hs]; omega

lemma crypt_rot13_ne_nil (P : List Nat) (hP : P ≠ []) : crypt_rot13 P ≠ [] := by
  cases P with
  | nil => exact absurd rfl hP
  | cons c r =>
    apply List.ne_nil_of_length_pos
    have h1 := utf8EncodeChar_length_pos (rot13Char c)
    simp only [crypt_rot13, List.flatMap_cons, List.length_append]
    omega

lemma crypt_rot47_ne_nil (P : List Nat) (hP : P ≠ []) : crypt_rot47 P ≠ [] := by
  cases P with
  | nil => exact absurd rfl hP
  | cons c r =>
    apply List.ne_nil_of_length_pos
    have h1 := utf8EncodeChar_length_pos (rot47Char c)
    simp only [crypt_rot47, List.flatMap_cons, List.length_append]
    omega

/-- Folding a list of (word, label, decoder) triples into the automaton with
add_word, in order. -/
def addWords (a : List Entry) (l : List Entry) : List Entry :=
  l.foldl (fun acc t => addWord acc t.1 t.2.1 t.2.2) a

lemma addWord_length (a : List Entry) (w : List Nat) (lab : String) (d : Dec)
    (hw : w ≠ []) : (addWord a w lab d).length = a.length + 1 := by
  cases w with
  | nil => exact absurd rfl hw
  | cons b t => simp [addWord]

lemma addWord_words_ne_nil (a : List Entry) (w : List Nat) (lab : String) (d : Dec)
    (ha : ∀ e ∈ a, e.1 ≠ []) : ∀ e ∈ addWord a w lab d, e.1 ≠ [] := by
  cases w with
  | nil =>
    intro e he
    exact ha e (by simpa [addWord] using he)
  | cons b t =>
    intro e he
    rcases (by simpa [addWord] using he : e ∈ a ∨ e = (b :: t, lab, d)) with h | rfl
    · exact ha e h
    · simp

lemma addWords_length (l : List Entry) (a : List Entry)
    (hf : ∀ t ∈ l, t.1 ≠ []) : (addWords a l).length = a.length + l.length := by
  induction l generalizing a with
  | nil => simp [addWords]
  | cons x t ih =>
    simp only [addWords, List.foldl_cons, List.length_cons]
    rw [show (List.foldl (fun acc t => addWord acc t.1 t.2.1 t.2.2) (addWord a x.1 x.2.1 x.2.2) t) = addWords (addWord a x.1 x.2.1 x.2.2) t from rfl]
    rw [ih _ (fun y hy => hf y (List.mem_cons_of_mem x hy)),
        addWord_length a x.1 x.2.1 x.2.2 (hf x (List.mem_cons_self x t))]
    omega

lemma addWords_words_ne_nil (l : List Entry) (a : List Entry)
    (ha : ∀ e ∈ a, e.1 ≠ []) : ∀ e ∈ addWords a l, e.1 ≠ [] := by
  induction l generalizing a with
  | nil => exact ha
  | cons x t ih =>
    simp only [addWords, List.foldl_cons]
    exact ih _ (addWord_words_ne_nil a x.1 x.2.1 x.2.2 ha)

/-- The insertion sequence of build_automaton as a flat list of
(word, label, decoder) triples, in source order. -/
def variantTriples (P cps : List Nat) : List Entry :=
  [(P, "ASCII", Dec.identity), (b64patternOf P, "base64", Dec.b64),
   (b32patternOf P, "base32", Dec.b32)]
  ++ codecList.map (fun c => (codecEncode c cps, codecName c, Dec.codec c))
  ++ (List.range' 1 255).map
      (fun k => (xorPattern k P, "XOR_" ++ toString k, Dec.xor k))
  ++ [(hexlify P, "hex", Dec.hex), (rawHexPattern P, "raw_hex", Dec.rawHex),
      (binPattern P, "binary", Dec.binary), (crypt_rot13 P, "raw_rot13", Dec.rot13),
      (crypt_rot47 P, "raw_rot47", Dec.rot47),
      (rawBinPattern P, "raw_binary", Dec.rawBinary)]

lemma build_automaton_eq (P cps : List Nat) (hcps : utf8Decode P = some cps) :
    build_automaton P = some (addWords [] (variantTriples P cps)) := by
  unfold build_automaton
  rw [hcps]
  rfl

lemma variantTriples_length (P cps : List Nat) :
    (variantTriples P cps).length = 270 := by
  simp [variantTriples, codecList]

lemma variantTriples_ne_nil (P cps : List Nat) (hP : P ≠ []) (hc : cps ≠ []) :
    ∀ t ∈ variantTriples P cps, t.1 ≠ [] := by
  intro t ht
  simp only [variantTriples, List.append_assoc, List.mem_append, List.mem_cons,
    List.not_mem_nil, or_false, List.mem_map] at ht
  rcases ht with (rfl | rfl | rfl) | ⟨c, _, rfl⟩ | ⟨k, _, rfl⟩ |
    (rfl | rfl | rfl | rfl | rfl | rfl)
  · exact hP
  · exact b64patternOf_ne_nil P hP
  · exact b32patternOf_ne_nil P hP
  · exact codecEncode_ne_nil c cps hc
  · exact List.ne_nil_of_length_pos
      (by simp only [xorPattern, List.length_map]; exact List.length_pos.mpr hP)
  · exact List.ne_nil_of_length_pos
      (by rw [hexlify_length]; have := List.length_pos.mpr hP; omega)
  · exact List.ne_nil_of_length_pos
      (by simp only [rawHexPattern, List.length_map, hexlify_length]
          have := List.length_pos.mpr hP; omega)
  · exact List.ne_nil_of_length_pos
      (by rw [binPattern_length]; have := List.length_pos.mpr hP; omega)
  · exact crypt_rot13_ne_nil P hP
  · exact crypt_rot47_ne_nil P hP
  · exact List.ne_nil_of_length_pos
      (by simp only [rawBinPattern, List.length_map, binPattern_length]
          have := List.length_pos.mpr hP; omega)

/-- C5: add_word skips an empty search pattern without error, leaving the
automaton unchanged; and for a non-empty pattern no encoding family of
build_automaton actually produces empty search bytes, so construction
succeeds with all 270 variants inserted and every stored word non-empty. -/
theorem C5_empty_variant :
    (∀ (a : List Entry) (lab : String) (d : Dec), addWord a [] lab d = a) ∧
    (∀ P : List Nat, P ≠ [] → (utf8Decode P).isSome →
      ∃ entries, build_automaton P = some entries ∧ entries.length = 270 ∧
        ∀ ent ∈ entries, ent.1 ≠ []) := by
  constructor
  · intro a lab d
    rfl
  · intro P hP hsome
    obtain ⟨cps, hcps⟩ := Option.isSome_iff_exists.mp hsome
    have hcne : cps ≠ [] := utf8Decode_ne_nil P cps hP hcps
    refine ⟨addWords [] (variantTriples P cps), build_automaton_eq P cps hcps, ?_, ?_⟩
    · rw [addWords_length _ _ (variantTriples_ne_nil P cps hP hcne),
        variantTriples_length]
      rfl
    · exact addWords_words_ne_nil _ _ (by intro e he; exact absurd he (List.not_mem_nil e))

theorem C5_empty_variant_witness :
    (([65] : List Nat) ≠ [] ∧ (utf8Decode [65]).isSome) ∧
    ∃ entries, build_automaton [65] = some entries ∧ entries.length = 270 ∧
      ∀ ent ∈ entries, ent.1 ≠ [] :=
  ⟨⟨by decide, by decide⟩, C5_empty_variant.2 [65] (by decide) (by decide)⟩

/-- Whether a decode result is a successful one. -/
def Dres.isOk : Dres → Bool
  | .ok _ => true
  | _ => false

/-- The decoded bytes of a successful decode result. -/
def Dres.getOk : Dres → List Nat
  | .ok b => b
  | _ => []

/-- The decode result of one match of extract_matches: the decoder applied to
the raw window h[start : start + MAX_FLAG_LENGTH]. -/
def decodeWindow (h : List Nat) (m : Nat × Entry) : Dres :=
  applyDec m.2.2.2 ((h.drop (m.1 + 1 - m.2.1.length)).take MAX_FLAG_LENGTH)

/-- The reported result of one successfully decoded match. -/
def resultOf (h : List Nat) (hname : String) (m : Nat × Entry) : Result :=
  (hname, m.2.2.1, postprocess_match (decodeWindow h m).getOk)

lemma sorted_flatMap_range (n : Nat) (g : Nat → List Nat)
    (hg : ∀ e, ∀ x ∈ g e, x = e) : ((List.range n).flatMap g).Sorted (· ≤ ·) := by
  induction n with
  | zero => simp
  | succ n ih =>
    rw [List.range_succ, List.flatMap_append]
    refine List.pairwise_append.mpr ⟨ih, ?_, ?_⟩
    · simp only [List.flatMap_cons, List.flatMap_nil, List.append_nil]
      apply List.pairwise_of_forall_mem_list
      intro a ha b hb
      rw [hg n a ha, hg n b hb]
    · intro x hx y hy
      simp only [List.mem_flatMap, List.mem_range] at hx
      obtain ⟨e, he, hxe⟩ := hx
      simp only [List.flatMap_cons, List.flatMap_nil, List.append_nil] at hy
      rw [hg e x hxe, hg n y hy]
      omega

lemma processMatches_full_ok (h : List Nat) (hname : String)
    (ms : List (Nat × Entry))
    (hok : ∀ m ∈ ms, (decodeWindow h m).isOk = true) :
    processMatches h hname false ms = .ok (ms.map (resultOf h hname), false) := by
  induction ms with
  | nil => rfl
  | cons m rest ih =>
    obtain ⟨e, w, lab, d⟩ := m
    have h1 := hok _ (List.mem_cons_self _ _)
    cases hd : applyDec d ((h.drop (e + 1 - w.length)).take MAX_FLAG_LENGTH) with
    | ok b =>
      simp only [processMatches, hd, if_neg (Bool.false_ne_true), Bool.false_eq_true,
        if_false]
      rw [ih (fun m hm => hok m (List.mem_cons_of_mem _ hm))]
      simp only [Except.map, List.map_cons]
      simp only [resultOf, decodeWindow, hd, Dres.getOk]
    | failed =>
      rw [show decodeWindow h (e, w, lab, d) =
        applyDec d ((h.drop (e + 1 - w.length)).take MAX_FLAG_LENGTH) from rfl, hd] at h1
      exact absurd h1 (by simp [Dres.isOk])
    | exc s =>
      rw [show decodeWindow h (e, w, lab, d) =
        applyDec d ((h.drop (e + 1 - w.length)).take MAX_FLAG_LENGTH) from rfl, hd] at h1
      exact absurd h1 (by simp [Dres.isOk])

lemma runViews_full_ok (entries : List Entry) (vs : List (List Nat × String))
    (hok : ∀ v ∈ vs, ∀ m ∈ iterMatches entries v.1,
      (decodeWindow v.1 m).isOk = true) :
    runViews entries false vs = .ok (vs.flatMap fun v =>
      (iterMatches entries v.1).map (resultOf v.1 v.2)) := by
  induction vs with
  | nil => rfl
  | cons v rest ih =>
    obtain ⟨h, name⟩ := v
    simp only [runViews]
    rw [processMatches_full_ok h name _ (hok _ (List.mem_cons_self _ _))]
    rw [ih (fun u hu => hok u (List.mem_cons_of_mem _ hu))]
    simp [List.flatMap_cons, Except.map]

/-- C9: the pipeline is a pure function, so running it twice on the same
pattern, buffer and mode gives identical result lists; within every view the
matcher lists matches in nondecreasing end-offset order; and in full mode,
when every matched window decodes successfully, the run succeeds and the
result list is exactly the views in generation order, each contributing its
matches in matcher order. -/
theorem C9_deterministic :
    (∀ (P B : List Nat) (fast : Bool),
      stringcheeseRun P B fast = stringcheeseRun P B fast) ∧
    (∀ (entries : List Entry) (h : List Nat),
      ((iterMatches entries h).map Prod.fst).Sorted (· ≤ ·)) ∧
    (∀ (entries : List Entry) (B : List Nat),
      (∀ v ∈ generate_haystacks B false, ∀ m ∈ iterMatches entries v.1,
        (decodeWindow v.1 m).isOk = true) →
      extract_matches_core entries B false =
        .ok ((generate_haystacks B false).flatMap fun v =>
          (iterMatches entries v.1).map (resultOf v.1 v.2))) := by
  refine ⟨fun _ _ _ => rfl, ?_, ?_⟩
  · intro entries h
    unfold iterMatches
    rw [List.map_flatMap]
    apply sorted_flatMap_range
    intro e x hx
    simp only [List.map_map, List.mem_map] at hx
    obtain ⟨ent, _, rfl⟩ := hx
    rfl
  · intro entries B hok
    exact runViews_full_ok entries (generate_haystacks B false) hok

theorem C9_deterministic_witness :
    (∀ v ∈ generate_haystacks [65, 66] false,
      ∀ m ∈ iterMatches [([65], "ASCII", Dec.identity)] v.1,
        (decodeWindow v.1 m).isOk = true) ∧
    extract_matches_core [([65], "ASCII", Dec.identity)] [65, 66] false =
      .ok ((generate_haystacks [65, 66] false).flatMap fun v =>
        (iterMatches [([65], "ASCII", Dec.identity)] v.1).map (resultOf v.1 v.2)) :=
  ⟨by decide, C9_deterministic.2.2 [([65], "ASCII", Dec.identity)] [65, 66] (by decide)⟩

lemma processMatches_fast (h : List Nat) (hname : String)
    (ms : List (Nat × Entry)) (rs : List Result) (b : Bool)
    (hp : processMatches h hname true ms = .ok (rs, b)) :
    (rs = [] ∧ b = false) ∨ ∃ r, rs = [r] ∧ b = true := by
  cases ms with
  | nil =>
    simp only [processMatches, Except.ok.injEq, Prod.mk.injEq] at hp
    exact Or.inl ⟨hp.1.symm, hp.2.symm⟩
  | cons m rest =>
    obtain ⟨e, w, lab, d⟩ := m
    simp only [processMatches] at hp
    cases hd : applyDec d ((h.drop (e + 1 - w.length)).take MAX_FLAG_LENGTH) with
    | ok v =>
      rw [hd] at hp
      simp only [if_true, Except.ok.injEq, Prod.mk.injEq] at hp
      exact Or.inr ⟨(hname, lab, postprocess_match v), hp.1.symm, hp.2.symm⟩
    | failed =>
      rw [hd] at hp
      exact absurd hp (by simp)
    | exc s =>
      rw [hd] at hp
      exact absurd hp (by simp)

lemma runViews_fast_le_one (entries : List Entry)
    (vs : List (List Nat × String)) (res : List Result)
    (h : runViews entries true vs = .ok res) : res.length ≤ 1 := by
  induction vs generalizing res with
  | nil =>
    simp only [runViews, Except.ok.injEq] at h
    rw [← h]
    simp
  | cons v rest ih =>
    obtain ⟨hv, name⟩ := v
    simp only [runViews] at h
    cases hp : processMatches hv name true (iterMatches entries hv) with
    | error s =>
      rw [hp] at h
      exact absurd h (by simp)
    | ok p =>
      obtain ⟨rs, b⟩ := p
      rw [hp] at h
      rcases processMatches_fast hv name _ rs b hp with ⟨hrs, hb⟩ | ⟨r, hrs, hb⟩
      · subst hrs hb
        cases hr : runViews entries true rest with
        | error s => rw [hr] at h; exact absurd h (by simp [Except.map])
        | ok l =>
          rw [hr] at h
          simp only [Except.map, List.nil_append, Except.ok.injEq] at h
          rw [← h]
          exact ih l hr
      · subst hrs hb
        simp only [Except.ok.injEq] at h
        rw [← h]
        simp

/-- C10: in fast mode the per-view scan stops at the first successfully
decoded match (it returns that single result with the stop flag set, or
nothing), so a fast-mode run that ends without a crash emits at most one
result tuple and processes no further views or matches after the first
report. -/
theorem C10_fast_single :
    (∀ (h : List Nat) (hname : String) (ms : List (Nat × Entry))
        (rs : List Result) (b : Bool),
      processMatches h hname true ms = .ok (rs, b) →
      (rs = [] ∧ b = false) ∨ ∃ r, rs = [r] ∧ b = true) ∧
    (∀ (entries : List Entry) (B : List Nat) (res : List Result),
      extract_matches_core entries B true = .ok res → res.length ≤ 1) :=
  ⟨processMatches_fast,
   fun entries B res h => runViews_fast_le_one entries (generate_haystacks B true) res h⟩

theorem C10_fast_single_witness :
    extract_matches_core [([66], "ASCII", Dec.identity)] [66, 66] true =
      .ok [("stream", "ASCII", [66, 66])] ∧
    ([("stream", "ASCII", ([66, 66] : List Nat))] : List Result).length ≤ 1 :=
  ⟨by rfl, C10_fast_single.2 [([66], "ASCII", Dec.identity)] [66, 66] _ (by rfl)⟩

end Stringcheese
